import Mathlib

/-!
Verification of the lexical scanner of ts-lox (src/scanner.ts).

The scanner is embedded shallowly: the source text is a `List Char`, the
mutable `Scanner` object becomes an explicit `ScanState` record threaded
through the functions, and every `while` loop of the source becomes a
fuelled structural recursion whose fuel (`source.length - current`) is shown
to reach the loop's exit condition.  Calls to the error reporter
`Lox.error(line, message)` (the Diagnostic Sink) are recorded as an
append-only list of `Report` values in the state.
-/

/-- Lexical categories (the `TokenType` enumeration of token_type.ts;
its members are reconstructed from their uses in scanner.ts together with
the closed list in the specification's data model). -/
inductive TokenType where
  | LEFT_PAREN | RIGHT_PAREN | LEFT_BRACE | RIGHT_BRACE
  | COMMA | DOT | MINUS | PLUS | SEMICOLON | SLASH | STAR
  | BANG | BANG_EQUAL | EQUAL | EQUAL_EQUAL
  | GREATER | GREATER_EQUAL | LESS | LESS_EQUAL
  | IDENTIFIER | STRING | NUMBER
  | AND | CLASS | ELSE | FALSE | FUN | FOR | IF | NIL | OR
  | PRINT | RETURN | SUPER | THIS | TRUE | VAR | WHILE
  | EOF
deriving DecidableEq, Repr

/-- Token literal values.  `num s` stands for the JavaScript value
`parseFloat(s)` of the matched substring `s` (the floating-point decode is
kept symbolic; the token records exactly which substring was decoded);
`str s` is the string body strictly between the quotes; `none` is the
`null` literal passed for all other tokens. -/
inductive Literal where
  | none
  | str (s : List Char)
  | num (s : List Char)
deriving DecidableEq, Repr

/-- The immutable token record (token.ts): constructed as
`new Token(type, lexeme, literal, line)` at every call site in scanner.ts. -/
structure Token where
  type : TokenType
  lexeme : List Char
  literal : Literal
  line : Nat
deriving DecidableEq, Repr

/-- One report sent to the Diagnostic Sink, i.e. one call
`Lox.error(line, message)`. -/
structure Report where
  line : Nat
  message : String
deriving DecidableEq, Repr

/-- The mutable fields of the `Scanner` class, plus the read-only `source`
and the accumulated Diagnostic Sink reports. -/
structure ScanState where
  source : List Char
  tokens : List Token
  start : Nat
  current : Nat
  line : Nat
  errors : List Report
deriving DecidableEq, Repr

/-- JavaScript's `source.charAt(i)`.  Every use in the scanner is in range;
out of range we return the NUL sentinel (JavaScript would return `""`). -/
def charAt (s : List Char) (i : Nat) : Char := s.getD i '\x00'

/-- JavaScript's `source.substring(a, b)` for `a ≤ b`: the characters at
indices `a .. b-1`. -/
def substring (s : List Char) (a b : Nat) : List Char := (s.drop a).take (b - a)

/-- The static keyword table `KEYWORDS` of scanner.ts. -/
def KEYWORDS : List (List Char × TokenType) := [
  ("and".toList, TokenType.AND),
  ("class".toList, TokenType.CLASS),
  ("else".toList, TokenType.ELSE),
  ("false".toList, TokenType.FALSE),
  ("for".toList, TokenType.FOR),
  ("fun".toList, TokenType.FUN),
  ("if".toList, TokenType.IF),
  ("nil".toList, TokenType.NIL),
  ("or".toList, TokenType.OR),
  ("print".toList, TokenType.PRINT),
  ("return".toList, TokenType.RETURN),
  ("super".toList, TokenType.SUPER),
  ("this".toList, TokenType.THIS),
  ("true".toList, TokenType.TRUE),
  ("var".toList, TokenType.VAR),
  ("while".toList, TokenType.WHILE)]

namespace Scanner

/-- Method `Scanner.isAtEnd`: `current >= source.length`. -/
def isAtEnd (st : ScanState) : Bool := st.source.length ≤ st.current

/-- Method `Scanner.peek`: the character at `current`, or the NUL sentinel at end. -/
def peek (st : ScanState) : Char :=
  if isAtEnd st then '\x00' else charAt st.source st.current

/-- Method `Scanner.peekNext`: the character at `current + 1`, or the NUL sentinel. -/
def peekNext (st : ScanState) : Char :=
  if st.source.length ≤ st.current + 1 then '\x00'
  else charAt st.source (st.current + 1)

/-- Method `Scanner.match(expected)`: conditional one-character consume.  Returns
the boolean result together with the updated state. -/
def matchChar (st : ScanState) (expected : Char) : Bool × ScanState :=
  if peek st != expected then (false, st)
  else (true, { st with current := st.current + 1 })

/-- Method `Scanner.advance`: return the character at `current` and move past it. -/
def advance (st : ScanState) : Char × ScanState :=
  (charAt st.source st.current, { st with current := st.current + 1 })

/-- Method `Scanner.addToken(type, literal)`: push a token whose lexeme is
`source.substring(start, current)` and whose line is the current `line`. -/
def addToken (st : ScanState) (type : TokenType) (literal : Literal) :
    ScanState :=
  let text := substring st.source st.start st.current
  { st with tokens := st.tokens ++ [⟨type, text, literal, st.line⟩] }

/-- One call `Lox.error(line, message)`: append a report for the
Diagnostic Sink. -/
def loxError (st : ScanState) (line : Nat) (message : String) : ScanState :=
  { st with errors := st.errors ++ [⟨line, message⟩] }

/-- Method `Scanner.isDigit`. -/
def isDigit (c : Char) : Bool := '0' ≤ c && c ≤ '9'

/-- Method `Scanner.isAlpha`. -/
def isAlpha (c : Char) : Bool :=
  ('a' ≤ c && c ≤ 'z') || ('A' ≤ c && c ≤ 'Z') || c == '_'

/-- Method `Scanner.isAlphaNumeric`. -/
def isAlphaNumeric (c : Char) : Bool := isAlpha c || isDigit c

/-- The `while` loop of `Scanner.string`:
`while (this.peek() != '"' && !this.isAtEnd()) { if (peek == "\n") line++; advance(); }`,
as a fuelled recursion. -/
def stringLoop : Nat → ScanState → ScanState
  | 0, st => st
  | fuel + 1, st =>
    if peek st != '"' && !(isAtEnd st) then
      let st1 := if peek st == '\n' then { st with line := st.line + 1 } else st
      stringLoop fuel (advance st1).2
    else st

/-- The comment loop of `Scanner.scanToken`:
`while (this.peek() != "\n" && !this.isAtEnd()) this.advance();`. -/
def commentLoop : Nat → ScanState → ScanState
  | 0, st => st
  | fuel + 1, st =>
    if peek st != '\n' && !(isAtEnd st) then commentLoop fuel (advance st).2
    else st

/-- The digit loops of `Scanner.number`:
`while (this.isDigit(this.peek())) this.advance();`. -/
def digitLoop : Nat → ScanState → ScanState
  | 0, st => st
  | fuel + 1, st =>
    if isDigit (peek st) then digitLoop fuel (advance st).2
    else st

/-- The loop of `Scanner.identifier`:
`while (this.isAlphaNumeric(this.peek())) this.advance();`. -/
def alnumLoop : Nat → ScanState → ScanState
  | 0, st => st
  | fuel + 1, st =>
    if isAlphaNumeric (peek st) then alnumLoop fuel (advance st).2
    else st

/-- Method `Scanner.string`: the string-literal sub-scanner, entered with the
opening quote already consumed.  On end of input it reports to the
Diagnostic Sink (the source passes the message "unexpected character.")
and emits nothing; otherwise it consumes the closing quote and emits a
STRING token whose literal is the body strictly between the quotes. -/
def string (st : ScanState) : ScanState :=
  let st1 := stringLoop (st.source.length - st.current) st
  if isAtEnd st1 then loxError st1 st1.line "unexpected character."
  else
    let st2 := (advance st1).2
    let str := substring st2.source (st2.start + 1) (st2.current - 1)
    addToken st2 TokenType.STRING (Literal.str str)

/-- Method `Scanner.number`: the number-literal sub-scanner, entered with the first
digit already consumed. -/
def number (st : ScanState) : ScanState :=
  let st1 := digitLoop (st.source.length - st.current) st
  let st2 :=
    if peek st1 == '.' && isDigit (peekNext st1) then
      let st1' := (advance st1).2
      digitLoop (st1'.source.length - st1'.current) st1'
    else st1
  addToken st2 TokenType.NUMBER
    (Literal.num (substring st2.source st2.start st2.current))

/-- Method `Scanner.identifier`: the identifier/keyword sub-scanner, entered with
the first letter or underscore already consumed.  `KEYWORDS.get(text)`
falling back to IDENTIFIER when undefined becomes `Option.getD`. -/
def identifier (st : ScanState) : ScanState :=
  let st1 := alnumLoop (st.source.length - st.current) st
  let text := substring st1.source st1.start st1.current
  let tokenType := (KEYWORDS.lookup text).getD TokenType.IDENTIFIER
  addToken st1 tokenType Literal.none

/-- Method `Scanner.scanToken`: consume one character and dispatch on it (the
`switch` of the source, rendered as a decision chain in source order). -/
def scanToken (st0 : ScanState) : ScanState :=
  let p := advance st0
  let c := p.1
  let st := p.2
  if c = '(' then addToken st TokenType.LEFT_PAREN Literal.none
  else if c = ')' then addToken st TokenType.RIGHT_PAREN Literal.none
  else if c = '\x7b' then addToken st TokenType.LEFT_BRACE Literal.none
  else if c = '\x7d' then addToken st TokenType.RIGHT_BRACE Literal.none
  else if c = ',' then addToken st TokenType.COMMA Literal.none
  else if c = '.' then addToken st TokenType.DOT Literal.none
  else if c = '-' then addToken st TokenType.MINUS Literal.none
  else if c = '+' then addToken st TokenType.PLUS Literal.none
  else if c = ';' then addToken st TokenType.SEMICOLON Literal.none
  else if c = '*' then addToken st TokenType.STAR Literal.none
  else if c = '!' then
    let m := matchChar st '='
    addToken m.2 (if m.1 then TokenType.BANG_EQUAL else TokenType.BANG)
      Literal.none
  else if c = '=' then
    let m := matchChar st '='
    addToken m.2 (if m.1 then TokenType.EQUAL_EQUAL else TokenType.EQUAL)
      Literal.none
  else if c = '<' then
    let m := matchChar st '='
    addToken m.2 (if m.1 then TokenType.LESS_EQUAL else TokenType.LESS)
      Literal.none
  else if c = '>' then
    let m := matchChar st '='
    addToken m.2 (if m.1 then TokenType.GREATER_EQUAL else TokenType.GREATER)
      Literal.none
  else if c = '/' then
    let m := matchChar st '/'
    if m.1 then commentLoop (m.2.source.length - m.2.current) m.2
    else addToken m.2 TokenType.SLASH Literal.none
  else if c = ' ' ∨ c = '\r' ∨ c = '\t' then st
  else if c = '\n' then { st with line := st.line + 1 }
  else if c = '"' then string st
  else if isDigit c then number st
  else if isAlpha c then identifier st
  else loxError st st.line "Unexpected character."

/-- The main loop of `Scanner.scanTokens`:
`while (!this.isAtEnd()) { this.start = this.current; this.scanToken(); }`. -/
def scanLoop : Nat → ScanState → ScanState
  | 0, st => st
  | fuel + 1, st =>
    if !(isAtEnd st) then scanLoop fuel (scanToken { st with start := st.current })
    else st

/-- The initial scanner state for a given source. -/
def initState (source : List Char) : ScanState :=
  { source := source, tokens := [], start := 0, current := 0, line := 1,
    errors := [] }

/-- Method `Scanner.scanTokens`: run the main loop over the whole input, then push
the terminating EOF token with an empty lexeme at the final line. -/
def scanTokens (source : List Char) : ScanState :=
  let st := scanLoop source.length (initState source)
  { st with tokens := st.tokens ++ [⟨TokenType.EOF, [], Literal.none, st.line⟩] }


end Scanner

/-! ### Specification predicates

These are not part of the program: they are the vocabulary in which the
claims about `Scanner.scanTokens` are stated. -/

/-- A span of source text that the scanner discards without emitting a
token: a single whitespace character, a newline, or a `//` comment running
to (but excluding) the end of its line. -/
def Discardable (s : List Char) : Prop :=
  s = [' '] ∨ s = ['\r'] ∨ s = ['\t'] ∨ s = ['\n'] ∨
  (s.take 2 = ['/', '/'] ∧ s.count '\n' = 0)

/-- The span of source text consumed between two successive states. -/
def chunkOf (st st' : ScanState) : List Char :=
  substring st.source st.current st'.current

/-- Everything one `Scanner.scanToken` step guarantees, relating the state
before (`st`) and after (`st'`): the source and `start` are untouched, the
cursor advances by at least one position and stays in bounds, `line` grows
by exactly the newlines inside the consumed span, and the step either
discards its span, pushes exactly one non-EOF token whose lexeme is the
span, or pushes nothing and sends exactly one report to the sink. -/
def StepOut (st st' : ScanState) : Prop :=
  st'.source = st.source ∧ st'.start = st.start ∧
  st.current < st'.current ∧ st'.current ≤ st.source.length ∧
  st'.line = st.line + (chunkOf st st').count '\n' ∧
  ∃ es, st'.errors = st.errors ++ es ∧
    ((st'.tokens = st.tokens ∧ es = [] ∧ Discardable (chunkOf st st')) ∨
     (∃ t, st'.tokens = st.tokens ++ [t] ∧ es = [] ∧
        t.lexeme = chunkOf st st' ∧ t.line = st'.line ∧
        t.type ≠ TokenType.EOF) ∨
     (st'.tokens = st.tokens ∧ ∃ e, es = [e]))

/-- The source text of a chunk: a discarded span is its own text, a token
chunk contributes its lexeme. -/
def chunkStr : (List Char ⊕ Token) → List Char
  | Sum.inl s => s
  | Sum.inr t => t.lexeme

/-- The token of a chunk, if any. -/
def chunkTok : (List Char ⊕ Token) → Option Token
  | Sum.inl _ => Option.none
  | Sum.inr t => Option.some t

/-- The invariant of the main scan loop: the cursor is in bounds, `line`
is one more than the number of newlines consumed, token lines are
monotone and bounded by the current line, no EOF token has been pushed,
every token's lexeme is a substring of the source whose end determines
the token's line, and the consumed prefix of the source is tiled exactly
by the tokens' lexemes and discarded spans in order (the last part
guaranteed only while no error has been reported). -/
def ScanInv (st : ScanState) : Prop :=
  st.current ≤ st.source.length ∧
  st.line = 1 + (st.source.take st.current).count '\n' ∧
  (st.tokens.map Token.line).Pairwise (· ≤ ·) ∧
  (∀ t ∈ st.tokens, t.line ≤ st.line) ∧
  (∀ t ∈ st.tokens, t.type ≠ TokenType.EOF) ∧
  (∀ t ∈ st.tokens, ∃ a b, a ≤ b ∧ b ≤ st.current ∧
     t.lexeme = substring st.source a b ∧
     t.line = 1 + (st.source.take b).count '\n') ∧
  ∃ chunks : List (List Char ⊕ Token),
    (chunks.map chunkStr).flatten = st.source.take st.current ∧
    chunks.filterMap chunkTok = st.tokens ∧
    (st.errors = [] → ∀ s, Sum.inl s ∈ chunks → Discardable s)

/-! ### List helper lemmas -/

theorem drop_length_takeWhile {α : Type} (p : α → Bool) (l : List α) :
    l.drop (l.takeWhile p).length = l.dropWhile p := by
  induction l with
  | nil => rfl
  | cons a l ih =>
    by_cases h : p a
    · simp [List.takeWhile_cons, List.dropWhile_cons, h, ih]
    · simp [List.takeWhile_cons, List.dropWhile_cons, h]

theorem take_length_takeWhile {α : Type} (p : α → Bool) (l : List α) :
    l.take (l.takeWhile p).length = l.takeWhile p :=
  (List.prefix_iff_eq_take.mp ( List.takeWhile_prefix p)).symm

theorem substring_nil (s : List Char) (a b : Nat) (h : b ≤ a) :
    substring s a b = [] := by
  simp [substring, Nat.sub_eq_zero_of_le h]

theorem substring_cons (s : List Char) (a b : Nat) (ha : a < s.length)
    (hab : a < b) : substring s a b = charAt s a :: substring s (a + 1) b := by
  unfold substring charAt
  rw [List.drop_eq_getElem_cons ha, List.getD_eq_getElem _ _ ha]
  have hb : b - a = (b - (a + 1)) + 1 := by omega
  rw [hb, List.take_succ_cons]

theorem substring_to_end (s : List Char) (a : Nat) :
    substring s a s.length = s.drop a := by
  have : (s.drop a).length = s.length - a := List.length_drop a s
  rw [substring, ← this, List.take_length]

theorem take_append_substring (s : List Char) (a b : Nat) (hab : a ≤ b) :
    s.take b = s.take a ++ substring s a b := by
  have hb : b = a + (b - a) := by omega
  calc s.take b = s.take (a + (b - a)) := by rw [← hb]
    _ = s.take a ++ (s.drop a).take (b - a) := List.take_add s a (b - a)
    _ = s.take a ++ substring s a b := rfl

theorem substring_takeWhile (p : Char → Bool) (s : List Char) (a : Nat) :
    substring s a (a + ((s.drop a).takeWhile p).length) =
      (s.drop a).takeWhile p := by
  rw [substring, Nat.add_sub_cancel_left, take_length_takeWhile]

theorem substring_length (s : List Char) (a b : Nat) (hb : b ≤ s.length)
    (hab : a ≤ b) : (substring s a b).length = b - a := by
  rw [substring, List.length_take, List.length_drop]
  omega

/-! ### Basic facts about the scanner state primitives -/

namespace Scanner

theorem isAtEnd_iff (st : ScanState) :
    isAtEnd st = true ↔ st.source.length ≤ st.current := by
  simp [isAtEnd]

theorem isAtEnd_false_iff (st : ScanState) :
    isAtEnd st = false ↔ st.current < st.source.length := by
  simp [isAtEnd]

theorem peek_eq_charAt (st : ScanState) :
    peek st = charAt st.source st.current := by
  unfold peek
  by_cases h : isAtEnd st
  · rw [if_pos h, charAt, List.getD_eq_default _ _ ((isAtEnd_iff st).mp h)]
  · rw [if_neg h]

theorem peek_getElem (st : ScanState) (h : st.current < st.source.length) :
    peek st = st.source[st.current] := by
  rw [peek_eq_charAt, charAt, List.getD_eq_getElem _ _ h]

theorem peek_of_atEnd (st : ScanState) (h : st.source.length ≤ st.current) :
    peek st = '\x00' := by
  rw [peek_eq_charAt, charAt, List.getD_eq_default _ _ h]

theorem isDigit_peek_lt (st : ScanState) (h : isDigit (peek st)) :
    st.current < st.source.length := by
  by_contra hge
  push_neg at hge
  rw [peek_of_atEnd st hge] at h
  exact absurd h (by decide)

theorem isAlphaNumeric_peek_lt (st : ScanState) (h : isAlphaNumeric (peek st)) :
    st.current < st.source.length := by
  by_contra hge
  push_neg at hge
  rw [peek_of_atEnd st hge] at h
  exact absurd h (by decide)

/-! ### Loop characterizations

Each `while` loop, given fuel at least `source.length - current`, advances
`current` over exactly the `takeWhile` run of its guard predicate and leaves
every other field alone (the string loop also counts the newlines it
consumed). -/

theorem digitLoop_spec (fuel : Nat) (st : ScanState)
    (h : st.source.length - st.current ≤ fuel) :
    digitLoop fuel st =
      { st with current :=
          st.current + ((st.source.drop st.current).takeWhile isDigit).length } := by
  induction fuel generalizing st with
  | zero =>
    have hd : st.source.drop st.current = [] :=
      List.drop_eq_nil_of_le (by omega)
    simp [digitLoop, hd]
  | succ fuel ih =>
    by_cases hc : isDigit (peek st)
    · have hlt := isDigit_peek_lt st hc
      have hdrop := List.drop_eq_getElem_cons (l := st.source) hlt
      rw [digitLoop, if_pos hc]
      rw [ih _ (by simp [advance]; omega)]
      rw [hdrop, List.takeWhile_cons_of_pos ((peek_getElem st hlt) ▸ hc)]
      simp [advance]
      omega
    · rw [digitLoop, if_neg hc]
      rcases Nat.lt_or_ge st.current st.source.length with hlt | hge
      · have hdrop := List.drop_eq_getElem_cons (l := st.source) hlt
        have hnd : ¬ isDigit st.source[st.current] := by
          rw [← peek_getElem st hlt]; exact hc
        rw [hdrop, List.takeWhile_cons_of_neg hnd]
        simp
      · rw [List.drop_eq_nil_of_le hge]
        simp

theorem alnumLoop_spec (fuel : Nat) (st : ScanState)
    (h : st.source.length - st.current ≤ fuel) :
    alnumLoop fuel st =
      { st with current :=
          st.current +
            ((st.source.drop st.current).takeWhile isAlphaNumeric).length } := by
  induction fuel generalizing st with
  | zero =>
    have hd : st.source.drop st.current = [] :=
      List.drop_eq_nil_of_le (by omega)
    simp [alnumLoop, hd]
  | succ fuel ih =>
    by_cases hc : isAlphaNumeric (peek st)
    · have hlt := isAlphaNumeric_peek_lt st hc
      have hdrop := List.drop_eq_getElem_cons (l := st.source) hlt
      rw [alnumLoop, if_pos hc]
      rw [ih _ (by simp [advance]; omega)]
      rw [hdrop, List.takeWhile_cons_of_pos ((peek_getElem st hlt) ▸ hc)]
      simp [advance]
      omega
    · rw [alnumLoop, if_neg hc]
      rcases Nat.lt_or_ge st.current st.source.length with hlt | hge
      · have hdrop := List.drop_eq_getElem_cons (l := st.source) hlt
        have hnd : ¬ isAlphaNumeric st.source[st.current] := by
          rw [← peek_getElem st hlt]; exact hc
        rw [hdrop, List.takeWhile_cons_of_neg hnd]
        simp
      · rw [List.drop_eq_nil_of_le hge]
        simp

theorem commentLoop_spec (fuel : Nat) (st : ScanState)
    (h : st.source.length - st.current ≤ fuel) :
    commentLoop fuel st =
      { st with current :=
          st.current +
            ((st.source.drop st.current).takeWhile (fun c => c != '\n')).length } := by
  induction fuel generalizing st with
  | zero =>
    have hd : st.source.drop st.current = [] :=
      List.drop_eq_nil_of_le (by omega)
    simp [commentLoop, hd]
  | succ fuel ih =>
    by_cases hc : (peek st != '\n' && !(isAtEnd st)) = true
    · have hlt : st.current < st.source.length := by
        rcases Bool.and_eq_true_iff.mp hc with ⟨_, hend⟩
        exact (isAtEnd_false_iff st).mp (by simpa using hend)
      have hp : (st.source[st.current] != '\n') = true := by
        rcases Bool.and_eq_true_iff.mp hc with ⟨hne, _⟩
        rwa [peek_getElem st hlt] at hne
      have hdrop := List.drop_eq_getElem_cons (l := st.source) hlt
      rw [commentLoop, if_pos hc]
      rw [ih _ (by simp [advance]; omega)]
      rw [hdrop, List.takeWhile_cons_of_pos (p := fun c => c != '\n') hp]
      simp [advance]
      omega
    · rw [commentLoop, if_neg hc]
      rcases Nat.lt_or_ge st.current st.source.length with hlt | hge
      · have hdrop := List.drop_eq_getElem_cons (l := st.source) hlt
        have hnd : ¬ (st.source[st.current] != '\n') = true := by
          intro hne
          exact hc (by
            rw [Bool.and_eq_true_iff]
            exact ⟨by rwa [peek_getElem st hlt], by
              simp [isAtEnd_false_iff st, hlt]⟩)
        rw [hdrop, List.takeWhile_cons_of_neg (p := fun c => c != '\n') hnd]
        simp
      · rw [List.drop_eq_nil_of_le hge]
        simp

theorem stringLoop_spec (fuel : Nat) (st : ScanState)
    (h : st.source.length - st.current ≤ fuel) :
    stringLoop fuel st =
      { st with
          current :=
            st.current +
              ((st.source.drop st.current).takeWhile (fun c => c != '"')).length,
          line :=
            st.line +
              ((st.source.drop st.current).takeWhile (fun c => c != '"')).count '\n' } := by
  induction fuel generalizing st with
  | zero =>
    have hd : st.source.drop st.current = [] :=
      List.drop_eq_nil_of_le (by omega)
    simp [stringLoop, hd]
  | succ fuel ih =>
    by_cases hc : (peek st != '"' && !(isAtEnd st)) = true
    · have hlt : st.current < st.source.length := by
        rcases Bool.and_eq_true_iff.mp hc with ⟨_, hend⟩
        exact (isAtEnd_false_iff st).mp (by simpa using hend)
      have hp : (st.source[st.current] != '"') = true := by
        rcases Bool.and_eq_true_iff.mp hc with ⟨hne, _⟩
        rwa [peek_getElem st hlt] at hne
      have hdrop := List.drop_eq_getElem_cons (l := st.source) hlt
      rw [stringLoop, if_pos hc]
      by_cases hnl : peek st == '\n'
      · rw [if_pos hnl]
        rw [ih _ (by simp [advance]; omega)]
        rw [hdrop, List.takeWhile_cons_of_pos (p := fun c => c != '"') hp]
        have hnl' : st.source[st.current] = '\n' := by
          rw [← peek_getElem st hlt]; exact eq_of_beq hnl
        simp [advance, hnl', List.count_cons]
        omega
      · rw [if_neg hnl]
        rw [ih _ (by simp [advance]; omega)]
        rw [hdrop, List.takeWhile_cons_of_pos (p := fun c => c != '"') hp]
        have hnl' : ¬ st.source[st.current] = '\n' := by
          rw [← peek_getElem st hlt]
          intro hh
          exact hnl (by rw [hh]; rfl)
        simp [advance, List.count_cons, hnl']
        omega
    · rw [stringLoop, if_neg hc]
      rcases Nat.lt_or_ge st.current st.source.length with hlt | hge
      · have hdrop := List.drop_eq_getElem_cons (l := st.source) hlt
        have hnd : ¬ (st.source[st.current] != '"') = true := by
          intro hne
          exact hc (by
            rw [Bool.and_eq_true_iff]
            exact ⟨by rwa [peek_getElem st hlt], by
              simp [isAtEnd_false_iff st, hlt]⟩)
        rw [hdrop, List.takeWhile_cons_of_neg (p := fun c => c != '"') hnd]
        simp
      · rw [List.drop_eq_nil_of_le hge]
        simp

/-! ### The keyword table never yields EOF -/

theorem lookup_mem_values {α β : Type} [BEq α] (t : α) (l : List (α × β))
    (v : β) (h : List.lookup t l = some v) : ∃ p ∈ l, p.2 = v := by
  induction l with
  | nil => simp [List.lookup] at h
  | cons hd tl ih =>
    rcases hd with ⟨k, b⟩
    rw [List.lookup_cons] at h
    cases htk : t == k with
    | true =>
      rw [htk] at h
      exact ⟨(k, b), List.mem_cons_self _ _, by simpa using h⟩
    | false =>
      rw [htk] at h
      obtain ⟨p, hp, hv⟩ := ih h
      exact ⟨p, List.mem_cons_of_mem _ hp, hv⟩

theorem keywordType_ne_eof (text : List Char) :
    (KEYWORDS.lookup text).getD TokenType.IDENTIFIER ≠ TokenType.EOF := by
  cases h : KEYWORDS.lookup text with
  | none => simp
  | some v =>
    obtain ⟨p, hp, hv⟩ := lookup_mem_values text KEYWORDS v h
    have hall : ∀ p ∈ KEYWORDS, p.2 ≠ TokenType.EOF := by decide
    simpa [hv] using hall p hp

/-! ### Characterizations of the three literal sub-scanners -/

theorem peekNext_eq_charAt (st : ScanState) :
    peekNext st = charAt st.source (st.current + 1) := by
  unfold peekNext
  by_cases h : st.source.length ≤ st.current + 1
  · rw [if_pos h, charAt, List.getD_eq_default _ _ h]
  · rw [if_neg h]

theorem digitLoop_at (s : List Char) (tk : List Token) (sa cu li : Nat)
    (er : List Report) :
    digitLoop (s.length - cu) ⟨s, tk, sa, cu, li, er⟩ =
      ⟨s, tk, sa, cu + ((s.drop cu).takeWhile isDigit).length, li, er⟩ := by
  simpa using digitLoop_spec (s.length - cu) ⟨s, tk, sa, cu, li, er⟩
    (Nat.le_refl _)

theorem alnumLoop_at (s : List Char) (tk : List Token) (sa cu li : Nat)
    (er : List Report) :
    alnumLoop (s.length - cu) ⟨s, tk, sa, cu, li, er⟩ =
      ⟨s, tk, sa, cu + ((s.drop cu).takeWhile isAlphaNumeric).length, li, er⟩ := by
  simpa using alnumLoop_spec (s.length - cu) ⟨s, tk, sa, cu, li, er⟩
    (Nat.le_refl _)

theorem commentLoop_at (s : List Char) (tk : List Token) (sa cu li : Nat)
    (er : List Report) :
    commentLoop (s.length - cu) ⟨s, tk, sa, cu, li, er⟩ =
      ⟨s, tk, sa,
        cu + ((s.drop cu).takeWhile (fun c => c != '\n')).length, li, er⟩ := by
  simpa using commentLoop_spec (s.length - cu) ⟨s, tk, sa, cu, li, er⟩
    (Nat.le_refl _)

theorem stringLoop_at (s : List Char) (tk : List Token) (sa cu li : Nat)
    (er : List Report) :
    stringLoop (s.length - cu) ⟨s, tk, sa, cu, li, er⟩ =
      ⟨s, tk, sa,
        cu + ((s.drop cu).takeWhile (fun c => c != '"')).length,
        li + ((s.drop cu).takeWhile (fun c => c != '"')).count '\n', er⟩ := by
  simpa using stringLoop_spec (s.length - cu) ⟨s, tk, sa, cu, li, er⟩
    (Nat.le_refl _)

/-- Method `Scanner.number`, characterized: it consumes the maximal digit run,
then a decimal point followed by a second maximal digit run exactly when
the point is immediately followed by a digit, and pushes one NUMBER token
whose lexeme and (symbolic parseFloat) literal are the matched substring. -/
theorem number_spec (st : ScanState) :
    number st =
      (let d1 := (st.source.drop st.current).takeWhile isDigit
       let m := st.current + d1.length
       let F :=
         if charAt st.source m == '.' && isDigit (charAt st.source (m + 1)) then
           m + 1 + ((st.source.drop (m + 1)).takeWhile isDigit).length
         else m
       { st with
           current := F,
           tokens := st.tokens ++
             [⟨TokenType.NUMBER, substring st.source st.start F,
               Literal.num (substring st.source st.start F), st.line⟩] }) := by
  obtain ⟨s, tk, sa, cu, li, er⟩ := st
  unfold number
  rw [digitLoop_at]
  simp only [peek_eq_charAt, peekNext_eq_charAt]
  by_cases hc : (charAt s (cu + ((s.drop cu).takeWhile isDigit).length) == '.'
      && isDigit
        (charAt s (cu + ((s.drop cu).takeWhile isDigit).length + 1))) = true
  · rw [if_pos hc, if_pos hc]
    simp only [advance]
    rw [digitLoop_at]
    simp [addToken]
  · rw [if_neg hc, if_neg hc]
    simp [addToken]

/-- Method `Scanner.identifier`, characterized: it consumes the maximal run of
letters, digits and underscores, looks the matched text up in the keyword
table with IDENTIFIER as the fallback, and pushes that one token with no
literal. -/
theorem identifier_spec (st : ScanState) :
    identifier st =
      (let run := (st.source.drop st.current).takeWhile isAlphaNumeric
       let F := st.current + run.length
       let text := substring st.source st.start F
       { st with
           current := F,
           tokens := st.tokens ++
             [⟨(KEYWORDS.lookup text).getD TokenType.IDENTIFIER, text,
               Literal.none, st.line⟩] }) := by
  obtain ⟨s, tk, sa, cu, li, er⟩ := st
  unfold identifier
  rw [alnumLoop_at]
  simp [addToken]

/-- Method `Scanner.string` on an input whose remainder contains no closing quote:
one unterminated-string report is sent to the Diagnostic Sink (with the
message text "unexpected character." that the source passes there) and no
token is pushed. -/
theorem string_of_no_quote (st : ScanState)
    (hcur : st.current ≤ st.source.length)
    (h : (st.source.drop st.current).all (fun c => c != '"')) :
    string st =
      { st with
          current := st.source.length,
          line := st.line + (st.source.drop st.current).count '\n',
          errors := st.errors ++
            [⟨st.line + (st.source.drop st.current).count '\n',
              "unexpected character."⟩] } := by
  obtain ⟨s, tk, sa, cu, li, er⟩ := st
  simp only at hcur h ⊢
  unfold string
  rw [stringLoop_at]
  have hbody : (s.drop cu).takeWhile (fun c => c != '"') = s.drop cu :=
    List.takeWhile_eq_self_iff.mpr (List.all_eq_true.mp h)
  have hlen : (s.drop cu).length = s.length - cu := List.length_drop _ _
  have hend : cu + ((s.drop cu).takeWhile (fun c => c != '"')).length =
      s.length := by rw [hbody, hlen]; omega
  rw [if_pos (by simp [isAtEnd_iff, hend])]
  simp [loxError, hbody, hend]
  omega

/-- Method `Scanner.string` when a closing quote exists: the scanner consumes the
body (counting its newlines), consumes the closing quote, and pushes one
STRING token whose literal is the body strictly between the quotes and
whose line is the line reached at the closing quote. -/
theorem string_of_quote (st : ScanState)
    (hq : st.current +
        ((st.source.drop st.current).takeWhile (fun c => c != '"')).length <
      st.source.length) :
    string st =
      (let body := (st.source.drop st.current).takeWhile (fun c => c != '"')
       let cb := st.current + body.length
       { st with
           current := cb + 1,
           line := st.line + body.count '\n',
           tokens := st.tokens ++
             [⟨TokenType.STRING, substring st.source st.start (cb + 1),
               Literal.str (substring st.source (st.start + 1) cb),
               st.line + body.count '\n'⟩] }) := by
  obtain ⟨s, tk, sa, cu, li, er⟩ := st
  simp only at hq ⊢
  unfold string
  rw [stringLoop_at]
  rw [if_neg (by simp [isAtEnd_iff]; omega)]
  simp [advance, addToken]

/-! ### Character class facts -/

theorem ne_newline_of_isDigit {c : Char} (h : isDigit c) : c ≠ '\n' := by
  intro he
  subst he
  exact absurd h (by decide)

theorem ne_newline_of_isAlphaNumeric {c : Char} (h : isAlphaNumeric c) :
    c ≠ '\n' := by
  intro he
  subst he
  exact absurd h (by decide)

theorem charAt_lt_of_ne_nul {s : List Char} {i : Nat} {c : Char}
    (hc : charAt s i = c) (hne : c ≠ '\x00') : i < s.length := by
  by_contra hge
  push_neg at hge
  rw [charAt, List.getD_eq_default _ _ hge] at hc
  exact hne hc.symm

theorem charAt_getElem {s : List Char} {i : Nat} (h : i < s.length) :
    charAt s i = s[i] := List.getD_eq_getElem _ _ h

/-! ### What a single `scanToken` dispatch branch does -/

theorem stepOut_addToken_one (s : List Char) (tk : List Token) (cu li : Nat)
    (er : List Report) (h : cu < s.length) (tt : TokenType)
    (htt : tt ≠ TokenType.EOF) (hnl : charAt s cu ≠ '\n') :
    StepOut ⟨s, tk, cu, cu, li, er⟩
      (addToken ⟨s, tk, cu, cu + 1, li, er⟩ tt Literal.none) := by
  have hchunk : substring s cu (cu + 1) = [charAt s cu] := by
    rw [substring_cons s cu (cu + 1) h (by omega),
      substring_nil s (cu + 1) (cu + 1) (Nat.le_refl _)]
  have hcount : (substring s cu (cu + 1)).count '\n' = 0 := by
    rw [hchunk]
    simp [List.count_cons, hnl]
  refine ⟨rfl, rfl, ?_, ?_, ?_, [], ?_, ?_⟩
  · show cu < cu + 1
    omega
  · show cu + 1 ≤ s.length
    omega
  · show li = li + (substring s cu (cu + 1)).count '\n'
    simp [hcount]
  · show er = er ++ []
    simp
  · right; left
    exact ⟨⟨tt, substring s cu (cu + 1), Literal.none, li⟩, rfl, rfl, rfl,
      rfl, htt⟩

theorem stepOut_match_eq (s : List Char) (tk : List Token) (cu li : Nat)
    (er : List Report) (h : cu < s.length) (t1 t2 : TokenType)
    (h1 : t1 ≠ TokenType.EOF) (h2 : t2 ≠ TokenType.EOF)
    (hnl : charAt s cu ≠ '\n') :
    StepOut ⟨s, tk, cu, cu, li, er⟩
      (addToken (matchChar ⟨s, tk, cu, cu + 1, li, er⟩ '=').2
        (if (matchChar ⟨s, tk, cu, cu + 1, li, er⟩ '=').1 then t1 else t2)
        Literal.none) := by
  have hpeek : peek ⟨s, tk, cu, cu + 1, li, er⟩ = charAt s (cu + 1) :=
    peek_eq_charAt _
  by_cases he : charAt s (cu + 1) = '='
  · have hlt : cu + 1 < s.length := charAt_lt_of_ne_nul he (by decide)
    have hm : matchChar ⟨s, tk, cu, cu + 1, li, er⟩ '=' =
        (true, ⟨s, tk, cu, cu + 1 + 1, li, er⟩) := by
      unfold matchChar
      rw [hpeek, he]
      simp
    rw [hm]
    have hchunk : substring s cu (cu + 1 + 1) =
        [charAt s cu, charAt s (cu + 1)] := by
      rw [substring_cons s cu (cu + 1 + 1) h (by omega),
        substring_cons s (cu + 1) (cu + 1 + 1) hlt (by omega),
        substring_nil s (cu + 1 + 1) (cu + 1 + 1) (Nat.le_refl _)]
    have hcount : (substring s cu (cu + 1 + 1)).count '\n' = 0 := by
      rw [hchunk, he]
      simp [List.count_cons, hnl]
    refine ⟨rfl, rfl, ?_, ?_, ?_, [], ?_, ?_⟩
    · show cu < cu + 1 + 1
      omega
    · show cu + 1 + 1 ≤ s.length
      omega
    · show li = li + (substring s cu (cu + 1 + 1)).count '\n'
      simp [hcount]
    · show er = er ++ []
      simp
    · right; left
      exact ⟨⟨t1, substring s cu (cu + 1 + 1), Literal.none, li⟩, rfl, rfl,
        rfl, rfl, h1⟩
  · have hm : matchChar ⟨s, tk, cu, cu + 1, li, er⟩ '=' =
        (false, ⟨s, tk, cu, cu + 1, li, er⟩) := by
      unfold matchChar
      rw [hpeek]
      simp [he]
    rw [hm]
    exact stepOut_addToken_one s tk cu li er h t2 h2 hnl

theorem stepOut_identifier (s : List Char) (tk : List Token) (cu li : Nat)
    (er : List Report) (h : cu < s.length) (hnl : charAt s cu ≠ '\n') :
    StepOut ⟨s, tk, cu, cu, li, er⟩
      (identifier ⟨s, tk, cu, cu + 1, li, er⟩) := by
  rw [identifier_spec]
  simp only []
  have hrun_le : ((s.drop (cu + 1)).takeWhile isAlphaNumeric).length ≤
      s.length - (cu + 1) := by
    have := ( List.takeWhile_prefix (l := s.drop (cu + 1)) isAlphaNumeric).length_le
    rwa [List.length_drop] at this
  have hdec : substring s cu (cu + 1 +
        ((s.drop (cu + 1)).takeWhile isAlphaNumeric).length) =
      charAt s cu :: (s.drop (cu + 1)).takeWhile isAlphaNumeric := by
    rw [substring_cons s cu _ h (by omega)]
    congr 1
    exact substring_takeWhile isAlphaNumeric s (cu + 1)
  have hnotin : ('\n' : Char) ∉ (s.drop (cu + 1)).takeWhile isAlphaNumeric :=
    fun hmem => absurd (List.mem_takeWhile_imp hmem) (by decide)
  have hcount : (substring s cu (cu + 1 +
      ((s.drop (cu + 1)).takeWhile isAlphaNumeric).length)).count '\n' = 0 := by
    rw [hdec]
    simp [List.count_cons, hnl, List.count_eq_zero.mpr hnotin]
  refine ⟨rfl, rfl, ?_, ?_, ?_, [], ?_, ?_⟩
  · show cu < cu + 1 + ((s.drop (cu + 1)).takeWhile isAlphaNumeric).length
    omega
  · show cu + 1 + ((s.drop (cu + 1)).takeWhile isAlphaNumeric).length ≤
      s.length
    omega
  · show li = li + (substring s cu (cu + 1 +
      ((s.drop (cu + 1)).takeWhile isAlphaNumeric).length)).count '\n'
    simp [hcount]
  · show er = er ++ []
    simp
  · right; left
    refine ⟨⟨(KEYWORDS.lookup (substring s cu (cu + 1 +
        ((s.drop (cu + 1)).takeWhile isAlphaNumeric).length))).getD
          TokenType.IDENTIFIER,
        substring s cu (cu + 1 +
          ((s.drop (cu + 1)).takeWhile isAlphaNumeric).length),
        Literal.none, li⟩, rfl, rfl, rfl, rfl, keywordType_ne_eof _⟩

theorem stepOut_number (s : List Char) (tk : List Token) (cu li : Nat)
    (er : List Report) (h : cu < s.length) (hd : isDigit (charAt s cu)) :
    StepOut ⟨s, tk, cu, cu, li, er⟩ (number ⟨s, tk, cu, cu + 1, li, er⟩) := by
  rw [number_spec]
  simp only []
  set d1 := (s.drop (cu + 1)).takeWhile isDigit with hd1
  have hd1_le : d1.length ≤ s.length - (cu + 1) := by
    have := ( List.takeWhile_prefix (l := s.drop (cu + 1)) isDigit).length_le
    rwa [List.length_drop] at this
  have hd1_notin : ('\n' : Char) ∉ d1 :=
    fun hmem => absurd (List.mem_takeWhile_imp hmem) (by decide)
  have hnl : charAt s cu ≠ '\n' := ne_newline_of_isDigit hd
  by_cases hfrac : (charAt s (cu + 1 + d1.length) == '.'
      && isDigit (charAt s (cu + 1 + d1.length + 1))) = true
  · rw [if_pos hfrac]
    obtain ⟨hdot, hdig2⟩ := Bool.and_eq_true_iff.mp hfrac
    have hdot' : charAt s (cu + 1 + d1.length) = '.' := eq_of_beq hdot
    have hm_lt : cu + 1 + d1.length < s.length :=
      charAt_lt_of_ne_nul hdot' (by decide)
    have hm1_lt : cu + 1 + d1.length + 1 < s.length := by
      by_contra hge
      push_neg at hge
      rw [charAt, List.getD_eq_default _ _ hge] at hdig2
      exact absurd hdig2 (by decide)
    set d2 := (s.drop (cu + 1 + d1.length + 1)).takeWhile isDigit with hd2
    have hd2_le : d2.length ≤ s.length - (cu + 1 + d1.length + 1) := by
      have := ( List.takeWhile_prefix
        (l := s.drop (cu + 1 + d1.length + 1)) isDigit).length_le
      rwa [List.length_drop] at this
    have hd2_notin : ('\n' : Char) ∉ d2 :=
      fun hmem => absurd (List.mem_takeWhile_imp hmem) (by decide)
    have hdw : (s.drop (cu + 1)).dropWhile isDigit =
        s.drop (cu + 1 + d1.length) := by
      rw [← drop_length_takeWhile isDigit (s.drop (cu + 1)), ← hd1,
        List.drop_drop]
    have hdrop_split : s.drop (cu + 1) =
        d1 ++ '.' :: s.drop (cu + 1 + d1.length + 1) := by
      conv_lhs => rw [← List.takeWhile_append_dropWhile isDigit
        (s.drop (cu + 1))]
      rw [hdw, List.drop_eq_getElem_cons hm_lt, ← charAt_getElem hm_lt,
        hdot', ← hd1]
    have hdec : substring s cu (cu + 1 + d1.length + 1 + d2.length) =
        charAt s cu :: (d1 ++ '.' :: d2) := by
      rw [substring_cons s cu _ h (by omega)]
      congr 1
      show (s.drop (cu + 1)).take
        (cu + 1 + d1.length + 1 + d2.length - (cu + 1)) = d1 ++ '.' :: d2
      rw [hdrop_split]
      have harith : cu + 1 + d1.length + 1 + d2.length - (cu + 1) =
          d1.length + (d2.length + 1) := by omega
      rw [harith, List.take_append, List.take_succ_cons, hd2,
        take_length_takeWhile]
    have hcount : (substring s cu
        (cu + 1 + d1.length + 1 + d2.length)).count '\n' = 0 := by
      rw [hdec]
      simp [List.count_cons, List.count_append, hnl,
        List.count_eq_zero.mpr hd1_notin, List.count_eq_zero.mpr hd2_notin]
    refine ⟨rfl, rfl, ?_, ?_, ?_, [], ?_, ?_⟩
    · show cu < cu + 1 + d1.length + 1 + d2.length
      omega
    · show cu + 1 + d1.length + 1 + d2.length ≤ s.length
      omega
    · show li = li + (substring s cu
        (cu + 1 + d1.length + 1 + d2.length)).count '\n'
      simp [hcount]
    · show er = er ++ []
      simp
    · right; left
      exact ⟨⟨TokenType.NUMBER,
        substring s cu (cu + 1 + d1.length + 1 + d2.length),
        Literal.num (substring s cu (cu + 1 + d1.length + 1 + d2.length)),
        li⟩, rfl, rfl, rfl, rfl,
        (by show TokenType.NUMBER ≠ TokenType.EOF; decide)⟩
  · rw [if_neg hfrac]
    have hdec : substring s cu (cu + 1 + d1.length) = charAt s cu :: d1 := by
      rw [substring_cons s cu _ h (by omega)]
      congr 1
      exact substring_takeWhile isDigit s (cu + 1)
    have hcount : (substring s cu (cu + 1 + d1.length)).count '\n' = 0 := by
      rw [hdec]
      simp [List.count_cons, hnl, List.count_eq_zero.mpr hd1_notin]
    refine ⟨rfl, rfl, ?_, ?_, ?_, [], ?_, ?_⟩
    · show cu < cu + 1 + d1.length
      omega
    · show cu + 1 + d1.length ≤ s.length
      omega
    · show li = li + (substring s cu (cu + 1 + d1.length)).count '\n'
      simp [hcount]
    · show er = er ++ []
      simp
    · right; left
      exact ⟨⟨TokenType.NUMBER, substring s cu (cu + 1 + d1.length),
        Literal.num (substring s cu (cu + 1 + d1.length)), li⟩,
        rfl, rfl, rfl, rfl,
        (by show TokenType.NUMBER ≠ TokenType.EOF; decide)⟩

theorem dropWhile_head_false {α : Type} (p : α → Bool) (l : List α) (x : α)
    (rest : List α) (h : l.dropWhile p = x :: rest) : p x = false := by
  induction l with
  | nil => simp at h
  | cons a l ih =>
    rw [List.dropWhile_cons] at h
    by_cases hpa : p a
    · rw [if_pos hpa] at h
      exact ih h
    · rw [if_neg hpa] at h
      cases h
      exact Bool.eq_false_iff.mpr hpa

theorem stepOut_string (s : List Char) (tk : List Token) (cu li : Nat)
    (er : List Report) (h : cu < s.length) (hq : charAt s cu = '"') :
    StepOut ⟨s, tk, cu, cu, li, er⟩ (string ⟨s, tk, cu, cu + 1, li, er⟩) := by
  set body := (s.drop (cu + 1)).takeWhile (fun c => c != '"') with hbody
  have hbody_le : body.length ≤ s.length - (cu + 1) := by
    have := ( List.takeWhile_prefix (l := s.drop (cu + 1))
      (fun c => c != '"')).length_le
    rw [List.length_drop] at this
    rw [hbody]
    exact this
  have hq1 : (('"' : Char) == '\n') = false := by decide
  by_cases hcase : cu + 1 + body.length < s.length
  · have hstr := string_of_quote ⟨s, tk, cu, cu + 1, li, er⟩
      (by show cu + 1 +
            ((s.drop (cu + 1)).takeWhile (fun c => c != '"')).length <
            s.length
          rw [← hbody]
          exact hcase)
    rw [hstr]
    simp only [← hbody]
    have hdw : (s.drop (cu + 1)).dropWhile (fun c => c != '"') =
        s.drop (cu + 1 + body.length) := by
      rw [← drop_length_takeWhile (fun c => c != '"') (s.drop (cu + 1)),
        ← hbody, List.drop_drop]
    have hcons : (s.drop (cu + 1)).dropWhile (fun c => c != '"') =
        charAt s (cu + 1 + body.length) ::
          s.drop (cu + 1 + body.length + 1) := by
      rw [hdw, List.drop_eq_getElem_cons hcase, ← charAt_getElem hcase]
    have hclose : charAt s (cu + 1 + body.length) = '"' := by
      have hb := dropWhile_head_false (fun c => c != '"') (s.drop (cu + 1))
        _ _ hcons
      simpa using hb
    have hsplit : s.drop (cu + 1) = body ++ s.drop (cu + 1 + body.length) := by
      conv_lhs => rw [← List.takeWhile_append_dropWhile (fun c => c != '"')
        (s.drop (cu + 1))]
      rw [hdw, ← hbody]
    have hdecomp : substring s cu (cu + 1 + body.length + 1) =
        '"' :: (body ++ ['"']) := by
      rw [substring_cons s cu _ h (by omega), hq]
      congr 1
      show (s.drop (cu + 1)).take
        (cu + 1 + body.length + 1 - (cu + 1)) = body ++ ['"']
      have harith : cu + 1 + body.length + 1 - (cu + 1) = body.length + 1 := by
        omega
      rw [harith, hsplit, List.take_append, List.drop_eq_getElem_cons hcase,
        ← charAt_getElem hcase, List.take_succ_cons, List.take_zero, hclose]
    have hcount : (substring s cu (cu + 1 + body.length + 1)).count '\n' =
        body.count '\n' := by
      rw [hdecomp]
      simp [List.count_cons, List.count_append, hq1]
    refine ⟨rfl, rfl, ?_, ?_, ?_, [], ?_, ?_⟩
    · show cu < cu + 1 + body.length + 1
      omega
    · show cu + 1 + body.length + 1 ≤ s.length
      omega
    · show li + body.count '\n' =
        li + (substring s cu (cu + 1 + body.length + 1)).count '\n'
      rw [hcount]
    · show er = er ++ []
      simp
    · right; left
      exact ⟨⟨TokenType.STRING, substring s cu (cu + 1 + body.length + 1),
        Literal.str (substring s (cu + 1) (cu + 1 + body.length)),
        li + body.count '\n'⟩, rfl, rfl, rfl, rfl,
        (by show TokenType.STRING ≠ TokenType.EOF; decide)⟩
  · have hbody_eq : body = s.drop (cu + 1) := by
      push_neg at hcase
      have hpre := List.takeWhile_prefix (l := s.drop (cu + 1))
        (fun c => c != '"')
      rw [← hbody] at hpre
      apply hpre.eq_of_length
      rw [List.length_drop]
      omega
    have hall : (s.drop (cu + 1)).all (fun c => c != '"') = true := by
      rw [List.all_eq_true]
      intro c hc
      rw [← hbody_eq, hbody] at hc
      exact List.mem_takeWhile_imp (p := fun c => c != '"') hc
    have hstr := string_of_no_quote ⟨s, tk, cu, cu + 1, li, er⟩
      (by show cu + 1 ≤ s.length; omega)
      (by show ((s.drop (cu + 1)).all fun c => c != '"') = true
          exact hall)
    rw [hstr]
    have hdecomp : substring s cu s.length = '"' :: s.drop (cu + 1) := by
      rw [substring_to_end, List.drop_eq_getElem_cons h, ← charAt_getElem h,
        hq]
    have hcount : (substring s cu s.length).count '\n' =
        (s.drop (cu + 1)).count '\n' := by
      rw [hdecomp]
      simp [List.count_cons, hq1]
    refine ⟨rfl, rfl, ?_, ?_, ?_,
      [⟨li + (s.drop (cu + 1)).count '\n', "unexpected character."⟩], ?_, ?_⟩
    · show cu < s.length
      exact h
    · show s.length ≤ s.length
      exact Nat.le_refl _
    · show li + (s.drop (cu + 1)).count '\n' =
        li + (substring s cu s.length).count '\n'
      rw [hcount]
    · rfl
    · right; right
      exact ⟨rfl, ⟨li + (s.drop (cu + 1)).count '\n',
        "unexpected character."⟩, rfl⟩


theorem ne_newline_of_isAlpha {c : Char} (h : isAlpha c) : c ≠ '\n' := by
  intro he
  subst he
  exact absurd h (by decide)

theorem stepOut_whitespace (s : List Char) (tk : List Token) (cu li : Nat)
    (er : List Report) (h : cu < s.length)
    (hd : charAt s cu = ' ' ∨ charAt s cu = '\r' ∨ charAt s cu = '\t') :
    StepOut ⟨s, tk, cu, cu, li, er⟩ ⟨s, tk, cu, cu + 1, li, er⟩ := by
  have hchunk : substring s cu (cu + 1) = [charAt s cu] := by
    rw [substring_cons s cu (cu + 1) h (by omega),
      substring_nil s (cu + 1) (cu + 1) (Nat.le_refl _)]
  have hnl : charAt s cu ≠ '\n' := by
    rcases hd with hc | hc | hc <;> rw [hc] <;> decide
  refine ⟨rfl, rfl, ?_, ?_, ?_, [], ?_, ?_⟩
  · show cu < cu + 1
    omega
  · show cu + 1 ≤ s.length
    omega
  · show li = li + (substring s cu (cu + 1)).count '\n'
    rw [hchunk]
    simp [List.count_cons, hnl]
  · show er = er ++ []
    simp
  · left
    refine ⟨rfl, rfl, ?_⟩
    show Discardable (substring s cu (cu + 1))
    rcases hd with hc | hc | hc
    · exact Or.inl (by rw [hchunk, hc])
    · exact Or.inr (Or.inl (by rw [hchunk, hc]))
    · exact Or.inr (Or.inr (Or.inl (by rw [hchunk, hc])))

theorem stepOut_newline (s : List Char) (tk : List Token) (cu li : Nat)
    (er : List Report) (h : cu < s.length) (hd : charAt s cu = '\n') :
    StepOut ⟨s, tk, cu, cu, li, er⟩ ⟨s, tk, cu, cu + 1, li + 1, er⟩ := by
  have hchunk : substring s cu (cu + 1) = ['\n'] := by
    rw [substring_cons s cu (cu + 1) h (by omega),
      substring_nil s (cu + 1) (cu + 1) (Nat.le_refl _), hd]
  refine ⟨rfl, rfl, ?_, ?_, ?_, [], ?_, ?_⟩
  · show cu < cu + 1
    omega
  · show cu + 1 ≤ s.length
    omega
  · show li + 1 = li + (substring s cu (cu + 1)).count '\n'
    rw [hchunk]
    simp
  · show er = er ++ []
    simp
  · left
    refine ⟨rfl, rfl, ?_⟩
    show Discardable (substring s cu (cu + 1))
    exact Or.inr (Or.inr (Or.inr (Or.inl hchunk)))

theorem stepOut_unexpected (s : List Char) (tk : List Token) (cu li : Nat)
    (er : List Report) (h : cu < s.length) (hnl : charAt s cu ≠ '\n') :
    StepOut ⟨s, tk, cu, cu, li, er⟩
      (loxError ⟨s, tk, cu, cu + 1, li, er⟩ li "Unexpected character.") := by
  have hchunk : substring s cu (cu + 1) = [charAt s cu] := by
    rw [substring_cons s cu (cu + 1) h (by omega),
      substring_nil s (cu + 1) (cu + 1) (Nat.le_refl _)]
  refine ⟨rfl, rfl, ?_, ?_, ?_, [⟨li, "Unexpected character."⟩], ?_, ?_⟩
  · show cu < cu + 1
    omega
  · show cu + 1 ≤ s.length
    omega
  · show li = li + (substring s cu (cu + 1)).count '\n'
    rw [hchunk]
    simp [List.count_cons, hnl]
  · rfl
  · right; right
    exact ⟨rfl, ⟨li, "Unexpected character."⟩, rfl⟩

theorem stepOut_comment_or_slash (s : List Char) (tk : List Token)
    (cu li : Nat) (er : List Report) (h : cu < s.length)
    (hc : charAt s cu = '/') :
    StepOut ⟨s, tk, cu, cu, li, er⟩
      (if (matchChar ⟨s, tk, cu, cu + 1, li, er⟩ '/').1 then
        commentLoop
          ((matchChar ⟨s, tk, cu, cu + 1, li, er⟩ '/').2.source.length -
            (matchChar ⟨s, tk, cu, cu + 1, li, er⟩ '/').2.current)
          (matchChar ⟨s, tk, cu, cu + 1, li, er⟩ '/').2
      else addToken (matchChar ⟨s, tk, cu, cu + 1, li, er⟩ '/').2
        TokenType.SLASH Literal.none) := by
  have hpeek : peek ⟨s, tk, cu, cu + 1, li, er⟩ = charAt s (cu + 1) :=
    peek_eq_charAt _
  by_cases hs2 : charAt s (cu + 1) = '/'
  · have hlt2 : cu + 1 < s.length := charAt_lt_of_ne_nul hs2 (by decide)
    have hm : matchChar ⟨s, tk, cu, cu + 1, li, er⟩ '/' =
        (true, ⟨s, tk, cu, cu + 1 + 1, li, er⟩) := by
      unfold matchChar
      rw [hpeek, hs2]
      simp
    rw [hm]
    simp only []
    rw [if_pos trivial]
    rw [commentLoop_at]
    set run := (s.drop (cu + 1 + 1)).takeWhile (fun c => c != '\n') with hrun
    have hrun_le : run.length ≤ s.length - (cu + 1 + 1) := by
      have := ( List.takeWhile_prefix (l := s.drop (cu + 1 + 1))
        (fun c => c != '\n')).length_le
      rw [List.length_drop] at this
      rw [hrun]
      exact this
    have hrun_notin : ('\n' : Char) ∉ run := by
      intro hmem
      rw [hrun] at hmem
      have := List.mem_takeWhile_imp (p := fun c => c != '\n') hmem
      simp at this
    have hdec : substring s cu (cu + 1 + 1 + run.length) =
        '/' :: '/' :: run := by
      rw [substring_cons s cu _ h (by omega),
        substring_cons s (cu + 1) _ hlt2 (by omega), hc, hs2]
      have : substring s (cu + 1 + 1) (cu + 1 + 1 + run.length) = run := by
        rw [hrun]
        exact substring_takeWhile (fun c => c != '\n') s (cu + 1 + 1)
      rw [this]
    have hcount : (substring s cu (cu + 1 + 1 + run.length)).count '\n' =
        0 := by
      rw [hdec]
      simp [List.count_cons, List.count_eq_zero.mpr hrun_notin]
    refine ⟨rfl, rfl, ?_, ?_, ?_, [], ?_, ?_⟩
    · show cu < cu + 1 + 1 + run.length
      omega
    · show cu + 1 + 1 + run.length ≤ s.length
      omega
    · show li = li + (substring s cu (cu + 1 + 1 + run.length)).count '\n'
      rw [hcount]
      omega
    · show er = er ++ []
      simp
    · left
      refine ⟨rfl, rfl, ?_⟩
      show Discardable (substring s cu (cu + 1 + 1 + run.length))
      refine Or.inr (Or.inr (Or.inr (Or.inr ⟨?_, hcount⟩)))
      rw [hdec]
      rfl
  · have hm : matchChar ⟨s, tk, cu, cu + 1, li, er⟩ '/' =
        (false, ⟨s, tk, cu, cu + 1, li, er⟩) := by
      unfold matchChar
      rw [hpeek]
      simp [hs2]
    rw [hm]
    simp only []
    rw [if_neg (by simp)]
    exact stepOut_addToken_one s tk cu li er h TokenType.SLASH (by decide)
      (by rw [hc]; decide)


theorem scanToken_stepOut (st : ScanState)
    (h : st.current < st.source.length) (hs : st.start = st.current) :
    StepOut st (scanToken st) := by
  obtain ⟨s, tk, sa, cu, li, er⟩ := st
  simp only at h hs
  rw [hs]
  unfold scanToken
  simp only [advance]
  by_cases h1 : charAt s cu = '('
  · rw [if_pos h1]
    exact stepOut_addToken_one s tk cu li er h TokenType.LEFT_PAREN
      (by decide) (by rw [h1]; decide)
  · rw [if_neg h1]
    by_cases h2 : charAt s cu = ')'
    · rw [if_pos h2]
      exact stepOut_addToken_one s tk cu li er h TokenType.RIGHT_PAREN
        (by decide) (by rw [h2]; decide)
    · rw [if_neg h2]
      by_cases h3 : charAt s cu = '\x7b'
      · rw [if_pos h3]
        exact stepOut_addToken_one s tk cu li er h TokenType.LEFT_BRACE
          (by decide) (by rw [h3]; decide)
      · rw [if_neg h3]
        by_cases h4 : charAt s cu = '\x7d'
        · rw [if_pos h4]
          exact stepOut_addToken_one s tk cu li er h TokenType.RIGHT_BRACE
            (by decide) (by rw [h4]; decide)
        · rw [if_neg h4]
          by_cases h5 : charAt s cu = ','
          · rw [if_pos h5]
            exact stepOut_addToken_one s tk cu li er h TokenType.COMMA
              (by decide) (by rw [h5]; decide)
          · rw [if_neg h5]
            by_cases h6 : charAt s cu = '.'
            · rw [if_pos h6]
              exact stepOut_addToken_one s tk cu li er h TokenType.DOT
                (by decide) (by rw [h6]; decide)
            · rw [if_neg h6]
              by_cases h7 : charAt s cu = '-'
              · rw [if_pos h7]
                exact stepOut_addToken_one s tk cu li er h TokenType.MINUS
                  (by decide) (by rw [h7]; decide)
              · rw [if_neg h7]
                by_cases h8 : charAt s cu = '+'
                · rw [if_pos h8]
                  exact stepOut_addToken_one s tk cu li er h TokenType.PLUS
                    (by decide) (by rw [h8]; decide)
                · rw [if_neg h8]
                  by_cases h9 : charAt s cu = ';'
                  · rw [if_pos h9]
                    exact stepOut_addToken_one s tk cu li er h TokenType.SEMICOLON
                      (by decide) (by rw [h9]; decide)
                  · rw [if_neg h9]
                    by_cases h10 : charAt s cu = '*'
                    · rw [if_pos h10]
                      exact stepOut_addToken_one s tk cu li er h TokenType.STAR
                        (by decide) (by rw [h10]; decide)
                    · rw [if_neg h10]
                      by_cases h11 : charAt s cu = '!'
                      · rw [if_pos h11]
                        exact stepOut_match_eq s tk cu li er h TokenType.BANG_EQUAL TokenType.BANG
                          (by decide) (by decide) (by rw [h11]; decide)
                      · rw [if_neg h11]
                        by_cases h12 : charAt s cu = '='
                        · rw [if_pos h12]
                          exact stepOut_match_eq s tk cu li er h TokenType.EQUAL_EQUAL TokenType.EQUAL
                            (by decide) (by decide) (by rw [h12]; decide)
                        · rw [if_neg h12]
                          by_cases h13 : charAt s cu = '<'
                          · rw [if_pos h13]
                            exact stepOut_match_eq s tk cu li er h TokenType.LESS_EQUAL TokenType.LESS
                              (by decide) (by decide) (by rw [h13]; decide)
                          · rw [if_neg h13]
                            by_cases h14 : charAt s cu = '>'
                            · rw [if_pos h14]
                              exact stepOut_match_eq s tk cu li er h TokenType.GREATER_EQUAL TokenType.GREATER
                                (by decide) (by decide) (by rw [h14]; decide)
                            · rw [if_neg h14]
                              by_cases h15 : charAt s cu = '/'
                              · rw [if_pos h15]
                                exact stepOut_comment_or_slash s tk cu li er h h15
                              · rw [if_neg h15]
                                by_cases h16 : charAt s cu = ' ' ∨ charAt s cu = '\r' ∨ charAt s cu = '\t'
                                · rw [if_pos h16]
                                  exact stepOut_whitespace s tk cu li er h h16
                                · rw [if_neg h16]
                                  by_cases h17 : charAt s cu = '\n'
                                  · rw [if_pos h17]
                                    exact stepOut_newline s tk cu li er h h17
                                  · rw [if_neg h17]
                                    by_cases h18 : charAt s cu = '"'
                                    · rw [if_pos h18]
                                      exact stepOut_string s tk cu li er h h18
                                    · rw [if_neg h18]
                                      by_cases h19 : isDigit (charAt s cu) = true
                                      · rw [if_pos h19]
                                        exact stepOut_number s tk cu li er h h19
                                      · rw [if_neg h19]
                                        by_cases h20 : isAlpha (charAt s cu) = true
                                        · rw [if_pos h20]
                                          exact stepOut_identifier s tk cu li er h
                                            (ne_newline_of_isAlpha h20)
                                        · rw [if_neg h20]
                                          exact stepOut_unexpected s tk cu li er h h17


/-! ### The main-loop invariant is preserved and the loop consumes the input -/

theorem scanInv_step (st : ScanState) (hlt : st.current < st.source.length)
    (hinv : ScanInv st) :
    ScanInv (scanToken { st with start := st.current }) ∧
    st.current < (scanToken { st with start := st.current }).current ∧
    (scanToken { st with start := st.current }).source = st.source := by
  obtain ⟨s, tk, sa, cu, li, er⟩ := st
  simp only at hlt ⊢
  obtain ⟨hcur, hlinv, hsorted, hbnd, hnoeof, hspans, chunks, hjoin, hfmap,
    hdisc⟩ := hinv
  simp only at hcur hlinv hsorted hbnd hnoeof hspans hjoin hfmap hdisc
  have hso := scanToken_stepOut ⟨s, tk, cu, cu, li, er⟩ hlt rfl
  obtain ⟨hsrc, hstart, hprog, hbound, hline, es, herr, hcases⟩ := hso
  simp only [chunkOf] at hline hcases
  set out := scanToken ⟨s, tk, cu, cu, li, er⟩ with hout
  have hline_ge : li ≤ out.line := by
    rw [hline]
    exact Nat.le_add_right _ _
  have htake : s.take out.current =
      s.take cu ++ substring s cu out.current :=
    take_append_substring s cu out.current (Nat.le_of_lt hprog)
  have hlinv2 : out.line = 1 + (s.take out.current).count '\n' := by
    rw [htake, List.count_append, hline, hlinv]
    omega
  refine ⟨?_, hprog, hsrc⟩
  refine ⟨?_, ?_, ?_, ?_, ?_, ?_, ?_⟩
  · rw [hsrc]
    exact hbound
  · rw [hsrc]
    exact hlinv2
  · rcases hcases with ⟨htok, -, -⟩ | ⟨t, htok, -, hlex, htl, -⟩ | ⟨htok, -⟩
    · rw [htok]
      exact hsorted
    · rw [htok, List.map_append]
      rw [List.pairwise_append]
      refine ⟨hsorted, by simp, ?_⟩
      intro a ha b hb
      simp only [List.map_cons, List.map_nil, List.mem_singleton] at hb
      subst hb
      obtain ⟨u, hu, rfl⟩ := List.mem_map.mp ha
      rw [htl]
      exact Nat.le_trans (hbnd u hu) hline_ge
    · rw [htok]
      exact hsorted
  · rcases hcases with ⟨htok, -, -⟩ | ⟨t, htok, -, hlex, htl, -⟩ | ⟨htok, -⟩
    · rw [htok]
      intro t ht
      exact Nat.le_trans (hbnd t ht) hline_ge
    · rw [htok]
      intro u hu
      rcases List.mem_append.mp hu with hu | hu
      · exact Nat.le_trans (hbnd u hu) hline_ge
      · rw [List.mem_singleton.mp hu, htl]
    · rw [htok]
      intro t ht
      exact Nat.le_trans (hbnd t ht) hline_ge
  · rcases hcases with ⟨htok, -, -⟩ | ⟨t, htok, -, hlex, htl, hty⟩ | ⟨htok, -⟩
    · rw [htok]
      exact hnoeof
    · rw [htok]
      intro u hu
      rcases List.mem_append.mp hu with hu | hu
      · exact hnoeof u hu
      · rw [List.mem_singleton.mp hu]
        exact hty
    · rw [htok]
      exact hnoeof
  · rcases hcases with ⟨htok, -, -⟩ | ⟨t, htok, -, hlex, htl, -⟩ | ⟨htok, -⟩
    · rw [htok, hsrc]
      intro t ht
      obtain ⟨a, b, hab, hb, hl, hli⟩ := hspans t ht
      exact ⟨a, b, hab, Nat.le_trans hb (Nat.le_of_lt hprog), hl, hli⟩
    · rw [htok, hsrc]
      intro u hu
      rcases List.mem_append.mp hu with hu | hu
      · obtain ⟨a, b, hab, hb, hl, hli⟩ := hspans u hu
        exact ⟨a, b, hab, Nat.le_trans hb (Nat.le_of_lt hprog), hl, hli⟩
      · rw [List.mem_singleton.mp hu]
        exact ⟨cu, out.current, Nat.le_of_lt hprog, Nat.le_refl _, hlex,
          htl.trans hlinv2⟩
    · rw [htok, hsrc]
      intro t ht
      obtain ⟨a, b, hab, hb, hl, hli⟩ := hspans t ht
      exact ⟨a, b, hab, Nat.le_trans hb (Nat.le_of_lt hprog), hl, hli⟩
  · rcases hcases with ⟨htok, hes, hdch⟩ | ⟨t, htok, hes, hlex, htl, -⟩ |
      ⟨htok, e, hes⟩
    · refine ⟨chunks ++ [Sum.inl (substring s cu out.current)], ?_, ?_, ?_⟩
      · rw [List.map_append, List.flatten_append, hsrc, htake, hjoin]
        simp [chunkStr]
      · rw [List.filterMap_append, htok, hfmap]
        simp [chunkTok]
      · intro herr0 x hx
        rw [herr, hes, List.append_nil] at herr0
        rcases List.mem_append.mp hx with hx | hx
        · exact hdisc herr0 x hx
        · simp only [List.mem_singleton, Sum.inl.injEq] at hx
          rw [hx]
          exact hdch
    · refine ⟨chunks ++ [Sum.inr t], ?_, ?_, ?_⟩
      · rw [List.map_append, List.flatten_append, hsrc, htake, hjoin]
        simp [chunkStr, hlex]
      · rw [List.filterMap_append, htok, hfmap]
        simp [chunkTok]
      · intro herr0 x hx
        rw [herr, hes, List.append_nil] at herr0
        rcases List.mem_append.mp hx with hx | hx
        · exact hdisc herr0 x hx
        · exact absurd (List.mem_singleton.mp hx) (by simp)
    · refine ⟨chunks ++ [Sum.inl (substring s cu out.current)], ?_, ?_, ?_⟩
      · rw [List.map_append, List.flatten_append, hsrc, htake, hjoin]
        simp [chunkStr]
      · rw [List.filterMap_append, htok, hfmap]
        simp [chunkTok]
      · intro herr0 x hx
        rw [herr, hes] at herr0
        exact absurd herr0 (by simp)

theorem scanLoop_inv (fuel : Nat) (st : ScanState)
    (hf : st.source.length - st.current ≤ fuel) (hinv : ScanInv st) :
    ScanInv (scanLoop fuel st) ∧ isAtEnd (scanLoop fuel st) = true ∧
    (scanLoop fuel st).source = st.source := by
  induction fuel generalizing st with
  | zero =>
    have hend : isAtEnd st = true := by
      rw [isAtEnd_iff]
      omega
    exact ⟨hinv, hend, rfl⟩
  | succ fuel ih =>
    by_cases hend : isAtEnd st = true
    · rw [scanLoop, hend]
      simp only [Bool.not_true]
      rw [if_neg (by simp)]
      exact ⟨hinv, hend, rfl⟩
    · have hlt : st.current < st.source.length := by
        rw [Bool.not_eq_true] at hend
        exact (isAtEnd_false_iff st).mp hend
      obtain ⟨hinv2, hprog, hsrc⟩ := scanInv_step st hlt hinv
      have hend2 : isAtEnd st = false := by
        revert hend
        cases isAtEnd st <;> simp
      rw [scanLoop]
      rw [if_pos (by rw [hend2]; rfl)]
      have hf2 : (scanToken { st with start := st.current }).source.length -
          (scanToken { st with start := st.current }).current ≤ fuel := by
        rw [hsrc]
        omega
      obtain ⟨ha, hb, hc⟩ := ih _ hf2 hinv2
      exact ⟨ha, hb, by rw [hc, hsrc]⟩

theorem scanInv_init (source : List Char) : ScanInv (initState source) := by
  refine ⟨?_, ?_, ?_, ?_, ?_, ?_, [], ?_, ?_, ?_⟩ <;> simp [initState]


/-! ### The final state of a scan -/

theorem scanTokens_final (source : List Char) :
    ScanInv (scanLoop source.length (initState source)) ∧
    (scanLoop source.length (initState source)).current = source.length ∧
    (scanLoop source.length (initState source)).source = source ∧
    scanTokens source = { scanLoop source.length (initState source) with
      tokens := (scanLoop source.length (initState source)).tokens ++
        [⟨TokenType.EOF, [], Literal.none,
          (scanLoop source.length (initState source)).line⟩] } := by
  obtain ⟨hinv, hend, hsrc⟩ := scanLoop_inv source.length (initState source)
    (by simp [initState]) (scanInv_init source)
  have hsrc2 : (scanLoop source.length (initState source)).source = source := by
    rw [hsrc]
    rfl
  refine ⟨hinv, ?_, hsrc2, rfl⟩
  have h1 := hinv.1
  rw [hsrc2] at h1
  have h2 := (isAtEnd_iff _).mp hend
  rw [hsrc2] at h2
  omega

/-! ### Claims -/

/-- C1: for every input, `scanTokens` terminates having consumed the whole
input, and returns a finite sequence whose last element is the single
END_OF_INPUT (EOF) token with an empty lexeme; EOF appears exactly once,
as the final element. -/
theorem scanTokens_terminates_last_eof (source : List Char) :
    (scanTokens source).current = source.length ∧
    (∃ ts, (scanTokens source).tokens =
        ts ++ [⟨TokenType.EOF, [], Literal.none, (scanTokens source).line⟩] ∧
      ∀ t ∈ ts, t.type ≠ TokenType.EOF) ∧
    (scanTokens source).tokens.countP
      (fun t => t.type == TokenType.EOF) = 1 := by
  obtain ⟨hinv, hcur, hsrc, heq⟩ := scanTokens_final source
  obtain ⟨h1, h2, h3, h4, h5, h6, -⟩ := hinv
  refine ⟨?_, ?_, ?_⟩
  · rw [heq]
    exact hcur
  · exact ⟨(scanLoop source.length (initState source)).tokens,
      by rw [heq], h5⟩
  · rw [heq]
    show ((scanLoop source.length (initState source)).tokens ++
      [(⟨TokenType.EOF, [], Literal.none,
        (scanLoop source.length (initState source)).line⟩ : Token)]).countP
      (fun t => t.type == TokenType.EOF) = 1
    rw [List.countP_append]
    have hz : (scanLoop source.length (initState source)).tokens.countP
        (fun t => t.type == TokenType.EOF) = 0 := by
      rw [List.countP_eq_zero]
      intro a ha
      simp [h5 a ha]
    rw [hz]
    simp [List.countP_cons]

/-- C4: on an input that produces no lexical errors, the consumed source is
tiled exactly, in order, by the emitted tokens' lexemes (excluding EOF)
and the discarded whitespace / newline / comment spans; concatenating all
the spans in order reproduces the source. -/
theorem lexemes_tile_source (source : List Char)
    (h : (scanTokens source).errors = []) :
    ∃ chunks : List (List Char ⊕ Token),
      (chunks.map chunkStr).flatten = source ∧
      chunks.filterMap chunkTok = (scanTokens source).tokens.dropLast ∧
      ∀ s, Sum.inl s ∈ chunks → Discardable s := by
  obtain ⟨hinv, hcur, hsrc, heq⟩ := scanTokens_final source
  obtain ⟨-, -, -, -, -, -, chunks, hjoin, hfmap, hdisc⟩ := hinv
  refine ⟨chunks, ?_, ?_, ?_⟩
  · rw [hjoin, hsrc, hcur, List.take_length]
  · rw [hfmap, heq]
    show (scanLoop source.length (initState source)).tokens =
      ((scanLoop source.length (initState source)).tokens ++
        [(⟨TokenType.EOF, [], Literal.none,
          (scanLoop source.length (initState source)).line⟩ : Token)]).dropLast
    rw [List.dropLast_concat]
  · apply hdisc
    exact h

/-- C3 (amended): a token's recorded line is the scanner's line counter at
emission time.  Every token's lexeme is a substring of the source whose
end position determines the recorded line (1 + newlines up to the end of
the lexeme); for a token whose lexeme contains no newline this equals the
line of its first character, but a string literal spanning several lines
is attributed the line of its closing quote, as the concrete multi-line
example shows. -/
theorem token_line_at_emission :
    (∀ source : List Char, ∀ t ∈ (scanTokens source).tokens,
      ∃ a b, a ≤ b ∧ b ≤ source.length ∧ t.lexeme = substring source a b ∧
        t.line = 1 + ((source.take b).count '\n') ∧
        (t.lexeme.count '\n' = 0 →
          t.line = 1 + ((source.take a).count '\n'))) ∧
    (scanTokens ['"', 'a', '\n', 'b', '"']).tokens.head? =
      some ⟨TokenType.STRING, ['"', 'a', '\n', 'b', '"'],
        Literal.str ['a', '\n', 'b'], 2⟩ := by
  refine ⟨?_, by decide⟩
  intro source t ht
  obtain ⟨hinv, hcur, hsrc, heq⟩ := scanTokens_final source
  obtain ⟨h1, h2, -, -, -, hspans, -⟩ := hinv
  rw [heq] at ht
  rcases List.mem_append.mp ht with ht | ht
  · obtain ⟨a, b, hab, hb, hlex, hline⟩ := hspans t ht
    rw [hsrc] at hlex hline
    rw [hcur] at hb
    refine ⟨a, b, hab, hb, hlex, hline, ?_⟩
    intro hlc
    have htk : source.take b = source.take a ++ t.lexeme := by
      rw [hlex]
      exact take_append_substring source a b hab
    rw [hline, htk, List.count_append, hlc]
    omega
  · have hteq := List.mem_singleton.mp ht
    subst hteq
    refine ⟨source.length, source.length, Nat.le_refl _, Nat.le_refl _,
      ?_, ?_, ?_⟩
    · exact (substring_nil source source.length source.length
        (Nat.le_refl _)).symm
    · show (scanLoop source.length (initState source)).line =
        1 + (source.take source.length).count '\n'
      rw [h2, hsrc, hcur]
    · intro hh
      show (scanLoop source.length (initState source)).line =
        1 + (source.take source.length).count '\n'
      rw [h2, hsrc, hcur]

/-- C3 (counterexample): the source claim attributes a multi-line string
literal to the line of its opening quote; in the code `addToken` records
the line counter after the embedded newlines have been counted, so the
string spanning lines 1-2 is emitted with line 2, not 1. -/
theorem string_start_line_cex :
    (scanTokens ['"', 'a', '\n', 'b', '"']).tokens =
      [⟨TokenType.STRING, ['"', 'a', '\n', 'b', '"'],
        Literal.str ['a', '\n', 'b'], 2⟩,
       ⟨TokenType.EOF, [], Literal.none, 2⟩] ∧
    1 + ((['"', 'a', '\n', 'b', '"'].take 0).count '\n') = 1 ∧
    (2 : Nat) ≠ 1 := by
  refine ⟨by decide, by decide, by decide⟩

/-- C5 (amended): across any scan the recorded token lines are monotone
non-decreasing, and the line counter starts at 1 and is incremented exactly
once per consumed newline, so the final line is 1 plus the number of
newlines in the input (which is consumed in full).  The original claim's
"1 + newlines before the token's first character" fails for multi-line
strings, whose line reflects the newlines inside the lexeme as well. -/
theorem line_monotone_newline_count (source : List Char) :
    ((scanTokens source).tokens.map Token.line).Pairwise (· ≤ ·) ∧
    (scanTokens source).line = 1 + source.count '\n' := by
  obtain ⟨hinv, hcur, hsrc, heq⟩ := scanTokens_final source
  obtain ⟨h1, h2, h3, h4, -, -, -⟩ := hinv
  constructor
  · rw [heq]
    show (((scanLoop source.length (initState source)).tokens ++
      [(⟨TokenType.EOF, [], Literal.none,
        (scanLoop source.length (initState source)).line⟩ : Token)]).map
        Token.line).Pairwise (· ≤ ·)
    rw [List.map_append, List.pairwise_append]
    refine ⟨h3, by simp, ?_⟩
    intro a ha b hb
    simp only [List.map_cons, List.map_nil, List.mem_singleton] at hb
    subst hb
    obtain ⟨u, hu, rfl⟩ := List.mem_map.mp ha
    exact h4 u hu
  · rw [heq]
    show (scanLoop source.length (initState source)).line =
      1 + source.count '\n'
    rw [h2, hsrc, hcur, List.take_length]

/-- C5 (counterexample): for the input consisting of a quote, a newline and
a quote, the STRING token's first character is consumed on line 1 with no
newline before it, yet the token records line 2: a token's line is not in
general 1 plus the newlines consumed before its first character. -/
theorem line_newlines_before_start_cex :
    (scanTokens ['"', '\n', '"']).tokens.head? =
      some ⟨TokenType.STRING, ['"', '\n', '"'], Literal.str ['\n'], 2⟩ ∧
    1 + ((['"', '\n', '"'].take 0).count '\n') = 1 ∧ (2 : Nat) ≠ 1 := by
  refine ⟨by decide, by decide, by decide⟩


/-- C2: if a string literal is opened and the input ends before a closing
quote, `Scanner.string` sends exactly one report to the Diagnostic Sink
(the report issued by its unterminated-string branch, src/scanner.ts line
58, whose message text in this code is "unexpected character.") and emits
no token; for the input `"abc` the whole scan yields only the EOF token
and the sink receives exactly that one report. -/
theorem unterminated_string_reports_once :
    (∀ st : ScanState, st.current ≤ st.source.length →
      (st.source.drop st.current).all (fun c => c != '"') = true →
      (string st).tokens = st.tokens ∧
      (string st).errors = st.errors ++
        [⟨(string st).line, "unexpected character."⟩]) ∧
    (scanTokens ['"', 'a', 'b', 'c']).tokens =
      [⟨TokenType.EOF, [], Literal.none, 1⟩] ∧
    (scanTokens ['"', 'a', 'b', 'c']).errors =
      [⟨1, "unexpected character."⟩] := by
  refine ⟨?_, by decide, by decide⟩
  intro st hcur hall
  rw [string_of_no_quote st hcur hall]
  exact ⟨rfl, rfl⟩

theorem unterminated_string_reports_once_witness :
    (⟨['"', 'x'], [], 0, 1, 1, []⟩ : ScanState).current ≤
      (['"', 'x'] : List Char).length ∧
    ((['"', 'x'] : List Char).drop 1).all (fun c => c != '"') = true ∧
    ((string ⟨['"', 'x'], [], 0, 1, 1, []⟩).tokens = [] ∧
     (string ⟨['"', 'x'], [], 0, 1, 1, []⟩).errors =
       [] ++ [⟨(string ⟨['"', 'x'], [], 0, 1, 1, []⟩).line,
         "unexpected character."⟩]) := by
  refine ⟨by decide, by decide, ?_⟩
  exact unterminated_string_reports_once.1 ⟨['"', 'x'], [], 0, 1, 1, []⟩
    (by decide) (by decide)

theorem token_line_at_emission_witness :
    (⟨TokenType.NUMBER, ['1'], Literal.num ['1'], 2⟩ : Token) ∈
      (scanTokens ['\n', '1']).tokens ∧
    (∃ a b, a ≤ b ∧ b ≤ (['\n', '1'] : List Char).length ∧
      (⟨TokenType.NUMBER, ['1'], Literal.num ['1'], 2⟩ : Token).lexeme =
        substring ['\n', '1'] a b ∧
      (⟨TokenType.NUMBER, ['1'], Literal.num ['1'], 2⟩ : Token).line =
        1 + (((['\n', '1'] : List Char).take b).count '\n') ∧
      ((⟨TokenType.NUMBER, ['1'], Literal.num ['1'], 2⟩ : Token).lexeme.count
          '\n' = 0 →
        (⟨TokenType.NUMBER, ['1'], Literal.num ['1'], 2⟩ : Token).line =
          1 + (((['\n', '1'] : List Char).take a).count '\n'))) := by
  refine ⟨by decide, ?_⟩
  exact token_line_at_emission.1 ['\n', '1']
    ⟨TokenType.NUMBER, ['1'], Literal.num ['1'], 2⟩ (by decide)

theorem lexemes_tile_source_witness :
    (scanTokens ['1', ' ', '+']).errors = [] ∧
    ∃ chunks : List (List Char ⊕ Token),
      (chunks.map chunkStr).flatten = ['1', ' ', '+'] ∧
      chunks.filterMap chunkTok =
        (scanTokens ['1', ' ', '+']).tokens.dropLast ∧
      ∀ s, Sum.inl s ∈ chunks → Discardable s :=
  ⟨by decide, lexemes_tile_source ['1', ' ', '+'] (by decide)⟩

/-- C6: `Scanner.number` consumes a maximal run of digits, then consumes a
decimal point and a second maximal digit run exactly when the point is
immediately followed by a digit, and pushes one NUMBER token whose lexeme
and literal (the symbolic `parseFloat` of that substring) are the matched
substring; hence `1.5` scans to a single NUMBER token for `1.5`, and `1.`
scans to NUMBER `1` followed by a DOT token. -/
theorem number_maximal_munch :
    (∀ st : ScanState,
      number st =
        (let d1 := (st.source.drop st.current).takeWhile isDigit
         let m := st.current + d1.length
         let F :=
           if charAt st.source m == '.' &&
               isDigit (charAt st.source (m + 1)) then
             m + 1 + ((st.source.drop (m + 1)).takeWhile isDigit).length
           else m
         { st with
             current := F,
             tokens := st.tokens ++
               [⟨TokenType.NUMBER, substring st.source st.start F,
                 Literal.num (substring st.source st.start F), st.line⟩] })) ∧
    (scanTokens ['1', '.', '5']).tokens =
      [⟨TokenType.NUMBER, ['1', '.', '5'], Literal.num ['1', '.', '5'], 1⟩,
       ⟨TokenType.EOF, [], Literal.none, 1⟩] ∧
    (scanTokens ['1', '.']).tokens =
      [⟨TokenType.NUMBER, ['1'], Literal.num ['1'], 1⟩,
       ⟨TokenType.DOT, ['.'], Literal.none, 1⟩,
       ⟨TokenType.EOF, [], Literal.none, 1⟩] :=
  ⟨number_spec, by decide, by decide⟩

/-- C8: `Scanner.identifier` consumes a maximal run of letters, digits and
underscores, looks the exact matched text up in the keyword table KEYWORDS
(IDENTIFIER when absent), and pushes that one token with no literal; so
`classic` scans to one IDENTIFIER token and `class` to one CLASS token. -/
theorem identifier_keyword_lookup :
    (∀ st : ScanState,
      identifier st =
        (let run := (st.source.drop st.current).takeWhile isAlphaNumeric
         let F := st.current + run.length
         let text := substring st.source st.start F
         { st with
             current := F,
             tokens := st.tokens ++
               [⟨(KEYWORDS.lookup text).getD TokenType.IDENTIFIER, text,
                 Literal.none, st.line⟩] })) ∧
    (scanTokens "classic".toList).tokens =
      [⟨TokenType.IDENTIFIER, "classic".toList, Literal.none, 1⟩,
       ⟨TokenType.EOF, [], Literal.none, 1⟩] ∧
    (scanTokens "class".toList).tokens =
      [⟨TokenType.CLASS, "class".toList, Literal.none, 1⟩,
       ⟨TokenType.EOF, [], Literal.none, 1⟩] :=
  ⟨identifier_spec, by decide, by decide⟩

/-- C7: on consuming one of `!`, `=`, `<`, `>`, the scanner looks ahead
exactly one character: when it is `=`, both characters are consumed and
the two-character token type is emitted; otherwise only the one-character
token type is emitted and the cursor has moved by one.  In particular
`!=` scans to a single BANG_EQUAL token and `!` before a non-`=` character
scans to BANG followed by the next token. -/
theorem operator_two_char_lookahead :
    (∀ st : ScanState, ∀ c : Char, ∀ t1 t2 : TokenType,
      (c, t1, t2) ∈ [('!', TokenType.BANG, TokenType.BANG_EQUAL),
        ('=', TokenType.EQUAL, TokenType.EQUAL_EQUAL),
        ('<', TokenType.LESS, TokenType.LESS_EQUAL),
        ('>', TokenType.GREATER, TokenType.GREATER_EQUAL)] →
      st.start = st.current → st.current < st.source.length →
      charAt st.source st.current = c →
      (charAt st.source (st.current + 1) = '=' →
        scanToken st = { st with
          current := st.current + 1 + 1,
          tokens := st.tokens ++ [⟨t2, [c, '='], Literal.none, st.line⟩] }) ∧
      (charAt st.source (st.current + 1) ≠ '=' →
        scanToken st = { st with
          current := st.current + 1,
          tokens := st.tokens ++ [⟨t1, [c], Literal.none, st.line⟩] })) ∧
    (scanTokens ['!', '=']).tokens =
      [⟨TokenType.BANG_EQUAL, ['!', '='], Literal.none, 1⟩,
       ⟨TokenType.EOF, [], Literal.none, 1⟩] ∧
    (scanTokens ['!', ';']).tokens =
      [⟨TokenType.BANG, ['!'], Literal.none, 1⟩,
       ⟨TokenType.SEMICOLON, [';'], Literal.none, 1⟩,
       ⟨TokenType.EOF, [], Literal.none, 1⟩] := by
  refine ⟨?_, by decide, by decide⟩
  intro st c t1 t2 hmem hs hlt hc
  obtain ⟨s, tk, sa, cu, li, er⟩ := st
  simp only at hs hlt hc ⊢
  rw [hs]
  simp only [List.mem_cons, List.mem_singleton, Prod.mk.injEq] at hmem
  rcases hmem with ⟨rfl, rfl, rfl⟩ | ⟨rfl, rfl, rfl⟩ | ⟨rfl, rfl, rfl⟩ |
    ⟨rfl, rfl, rfl⟩ | hmem0
  · have hpeek : peek ⟨s, tk, cu, cu + 1, li, er⟩ = charAt s (cu + 1) :=
      peek_eq_charAt _
    constructor
    · intro he
      have hlt2 : cu + 1 < s.length := charAt_lt_of_ne_nul he (by decide)
      unfold scanToken
      simp only [advance]
      rw [if_neg (by rw [hc]; decide), if_neg (by rw [hc]; decide), if_neg (by rw [hc]; decide), if_neg (by rw [hc]; decide), if_neg (by rw [hc]; decide), if_neg (by rw [hc]; decide), if_neg (by rw [hc]; decide), if_neg (by rw [hc]; decide), if_neg (by rw [hc]; decide), if_neg (by rw [hc]; decide), if_pos hc]
      have hm : matchChar ⟨s, tk, cu, cu + 1, li, er⟩ '=' =
          (true, ⟨s, tk, cu, cu + 1 + 1, li, er⟩) := by
        unfold matchChar
        rw [hpeek, he]
        simp
      simp only [hm]
      have hsub : substring s cu (cu + 1 + 1) = ['!', '='] := by
        rw [substring_cons s cu _ hlt (by omega),
          substring_cons s (cu + 1) _ hlt2 (by omega),
          substring_nil s (cu + 1 + 1) (cu + 1 + 1) (Nat.le_refl _),
          hc, he]
      simp [addToken, hsub]
    · intro hne
      unfold scanToken
      simp only [advance]
      rw [if_neg (by rw [hc]; decide), if_neg (by rw [hc]; decide), if_neg (by rw [hc]; decide), if_neg (by rw [hc]; decide), if_neg (by rw [hc]; decide), if_neg (by rw [hc]; decide), if_neg (by rw [hc]; decide), if_neg (by rw [hc]; decide), if_neg (by rw [hc]; decide), if_neg (by rw [hc]; decide), if_pos hc]
      have hm : matchChar ⟨s, tk, cu, cu + 1, li, er⟩ '=' =
          (false, ⟨s, tk, cu, cu + 1, li, er⟩) := by
        unfold matchChar
        rw [hpeek]
        simp [hne]
      simp only [hm]
      have hsub : substring s cu (cu + 1) = ['!'] := by
        rw [substring_cons s cu _ hlt (by omega),
          substring_nil s (cu + 1) (cu + 1) (Nat.le_refl _), hc]
      simp [addToken, hsub]
  · have hpeek : peek ⟨s, tk, cu, cu + 1, li, er⟩ = charAt s (cu + 1) :=
      peek_eq_charAt _
    constructor
    · intro he
      have hlt2 : cu + 1 < s.length := charAt_lt_of_ne_nul he (by decide)
      unfold scanToken
      simp only [advance]
      rw [if_neg (by rw [hc]; decide), if_neg (by rw [hc]; decide), if_neg (by rw [hc]; decide), if_neg (by rw [hc]; decide), if_neg (by rw [hc]; decide), if_neg (by rw [hc]; decide), if_neg (by rw [hc]; decide), if_neg (by rw [hc]; decide), if_neg (by rw [hc]; decide), if_neg (by rw [hc]; decide), if_neg (by rw [hc]; decide), if_pos hc]
      have hm : matchChar ⟨s, tk, cu, cu + 1, li, er⟩ '=' =
          (true, ⟨s, tk, cu, cu + 1 + 1, li, er⟩) := by
        unfold matchChar
        rw [hpeek, he]
        simp
      simp only [hm]
      have hsub : substring s cu (cu + 1 + 1) = ['=', '='] := by
        rw [substring_cons s cu _ hlt (by omega),
          substring_cons s (cu + 1) _ hlt2 (by omega),
          substring_nil s (cu + 1 + 1) (cu + 1 + 1) (Nat.le_refl _),
          hc, he]
      simp [addToken, hsub]
    · intro hne
      unfold scanToken
      simp only [advance]
      rw [if_neg (by rw [hc]; decide), if_neg (by rw [hc]; decide), if_neg (by rw [hc]; decide), if_neg (by rw [hc]; decide), if_neg (by rw [hc]; decide), if_neg (by rw [hc]; decide), if_neg (by rw [hc]; decide), if_neg (by rw [hc]; decide), if_neg (by rw [hc]; decide), if_neg (by rw [hc]; decide), if_neg (by rw [hc]; decide), if_pos hc]
      have hm : matchChar ⟨s, tk, cu, cu + 1, li, er⟩ '=' =
          (false, ⟨s, tk, cu, cu + 1, li, er⟩) := by
        unfold matchChar
        rw [hpeek]
        simp [hne]
      simp only [hm]
      have hsub : substring s cu (cu + 1) = ['='] := by
        rw [substring_cons s cu _ hlt (by omega),
          substring_nil s (cu + 1) (cu + 1) (Nat.le_refl _), hc]
      simp [addToken, hsub]
  · have hpeek : peek ⟨s, tk, cu, cu + 1, li, er⟩ = charAt s (cu + 1) :=
      peek_eq_charAt _
    constructor
    · intro he
      have hlt2 : cu + 1 < s.length := charAt_lt_of_ne_nul he (by decide)
      unfold scanToken
      simp only [advance]
      rw [if_neg (by rw [hc]; decide), if_neg (by rw [hc]; decide), if_neg (by rw [hc]; decide), if_neg (by rw [hc]; decide), if_neg (by rw [hc]; decide), if_neg (by rw [hc]; decide), if_neg (by rw [hc]; decide), if_neg (by rw [hc]; decide), if_neg (by rw [hc]; decide), if_neg (by rw [hc]; decide), if_neg (by rw [hc]; decide), if_neg (by rw [hc]; decide), if_pos hc]
      have hm : matchChar ⟨s, tk, cu, cu + 1, li, er⟩ '=' =
          (true, ⟨s, tk, cu, cu + 1 + 1, li, er⟩) := by
        unfold matchChar
        rw [hpeek, he]
        simp
      simp only [hm]
      have hsub : substring s cu (cu + 1 + 1) = ['<', '='] := by
        rw [substring_cons s cu _ hlt (by omega),
          substring_cons s (cu + 1) _ hlt2 (by omega),
          substring_nil s (cu + 1 + 1) (cu + 1 + 1) (Nat.le_refl _),
          hc, he]
      simp [addToken, hsub]
    · intro hne
      unfold scanToken
      simp only [advance]
      rw [if_neg (by rw [hc]; decide), if_neg (by rw [hc]; decide), if_neg (by rw [hc]; decide), if_neg (by rw [hc]; decide), if_neg (by rw [hc]; decide), if_neg (by rw [hc]; decide), if_neg (by rw [hc]; decide), if_neg (by rw [hc]; decide), if_neg (by rw [hc]; decide), if_neg (by rw [hc]; decide), if_neg (by rw [hc]; decide), if_neg (by rw [hc]; decide), if_pos hc]
      have hm : matchChar ⟨s, tk, cu, cu + 1, li, er⟩ '=' =
          (false, ⟨s, tk, cu, cu + 1, li, er⟩) := by
        unfold matchChar
        rw [hpeek]
        simp [hne]
      simp only [hm]
      have hsub : substring s cu (cu + 1) = ['<'] := by
        rw [substring_cons s cu _ hlt (by omega),
          substring_nil s (cu + 1) (cu + 1) (Nat.le_refl _), hc]
      simp [addToken, hsub]
  · have hpeek : peek ⟨s, tk, cu, cu + 1, li, er⟩ = charAt s (cu + 1) :=
      peek_eq_charAt _
    constructor
    · intro he
      have hlt2 : cu + 1 < s.length := charAt_lt_of_ne_nul he (by decide)
      unfold scanToken
      simp only [advance]
      rw [if_neg (by rw [hc]; decide), if_neg (by rw [hc]; decide), if_neg (by rw [hc]; decide), if_neg (by rw [hc]; decide), if_neg (by rw [hc]; decide), if_neg (by rw [hc]; decide), if_neg (by rw [hc]; decide), if_neg (by rw [hc]; decide), if_neg (by rw [hc]; decide), if_neg (by rw [hc]; decide), if_neg (by rw [hc]; decide), if_neg (by rw [hc]; decide), if_neg (by rw [hc]; decide), if_pos hc]
      have hm : matchChar ⟨s, tk, cu, cu + 1, li, er⟩ '=' =
          (true, ⟨s, tk, cu, cu + 1 + 1, li, er⟩) := by
        unfold matchChar
        rw [hpeek, he]
        simp
      simp only [hm]
      have hsub : substring s cu (cu + 1 + 1) = ['>', '='] := by
        rw [substring_cons s cu _ hlt (by omega),
          substring_cons s (cu + 1) _ hlt2 (by omega),
          substring_nil s (cu + 1 + 1) (cu + 1 + 1) (Nat.le_refl _),
          hc, he]
      simp [addToken, hsub]
    · intro hne
      unfold scanToken
      simp only [advance]
      rw [if_neg (by rw [hc]; decide), if_neg (by rw [hc]; decide), if_neg (by rw [hc]; decide), if_neg (by rw [hc]; decide), if_neg (by rw [hc]; decide), if_neg (by rw [hc]; decide), if_neg (by rw [hc]; decide), if_neg (by rw [hc]; decide), if_neg (by rw [hc]; decide), if_neg (by rw [hc]; decide), if_neg (by rw [hc]; decide), if_neg (by rw [hc]; decide), if_neg (by rw [hc]; decide), if_pos hc]
      have hm : matchChar ⟨s, tk, cu, cu + 1, li, er⟩ '=' =
          (false, ⟨s, tk, cu, cu + 1, li, er⟩) := by
        unfold matchChar
        rw [hpeek]
        simp [hne]
      simp only [hm]
      have hsub : substring s cu (cu + 1) = ['>'] := by
        rw [substring_cons s cu _ hlt (by omega),
          substring_nil s (cu + 1) (cu + 1) (Nat.le_refl _), hc]
      simp [addToken, hsub]
  · exact absurd hmem0 (List.not_mem_nil _)

theorem operator_two_char_lookahead_witness :
    ((('<' : Char), TokenType.LESS, TokenType.LESS_EQUAL) ∈
      [('!', TokenType.BANG, TokenType.BANG_EQUAL),
       ('=', TokenType.EQUAL, TokenType.EQUAL_EQUAL),
       ('<', TokenType.LESS, TokenType.LESS_EQUAL),
       ('>', TokenType.GREATER, TokenType.GREATER_EQUAL)]) ∧
    charAt ['<', '='] 1 = '=' ∧
    scanToken ⟨['<', '='], [], 0, 0, 1, []⟩ =
      ⟨['<', '='], [⟨TokenType.LESS_EQUAL, ['<', '='], Literal.none, 1⟩],
        0, 0 + 1 + 1, 1, []⟩ := by
  refine ⟨by decide, by decide, ?_⟩
  exact (operator_two_char_lookahead.1 ⟨['<', '='], [], 0, 0, 1, []⟩ '<'
    TokenType.LESS TokenType.LESS_EQUAL (by decide) rfl (by decide)
    (by decide)).1 (by decide)

/-- C9: when the consumed character starts no recognized lexeme, the
scanner sends one unexpected-character report at the current line to the
Diagnostic Sink, emits no token, and resumes at the next character; for
the input `@` the sink receives exactly one such report at line 1 and the
output is only the EOF token. -/
theorem unexpected_char_report :
    (∀ st : ScanState, st.start = st.current →
      st.current < st.source.length →
      charAt st.source st.current ∉
        ['(', ')', '\x7b', '\x7d', ',', '.', '-', '+', ';', '*', '!', '=',
         '<', '>', '/', ' ', '\r', '\t', '\n', '"'] →
      isDigit (charAt st.source st.current) = false →
      isAlpha (charAt st.source st.current) = false →
      (scanToken st).tokens = st.tokens ∧
      (scanToken st).errors = st.errors ++
        [⟨st.line, "Unexpected character."⟩] ∧
      (scanToken st).current = st.current + 1) ∧
    ((scanTokens ['@']).tokens = [⟨TokenType.EOF, [], Literal.none, 1⟩] ∧
     (scanTokens ['@']).errors = [⟨1, "Unexpected character."⟩]) := by
  refine ⟨?_, by decide, by decide⟩
  intro st hs hlt hnotin hdig halpha
  obtain ⟨s, tk, sa, cu, li, er⟩ := st
  simp only at hs hlt hnotin hdig halpha ⊢
  rw [hs]
  unfold scanToken
  simp only [advance]
  rw [if_neg (fun hh => hnotin (by rw [hh]; decide)),
    if_neg (fun hh => hnotin (by rw [hh]; decide)),
    if_neg (fun hh => hnotin (by rw [hh]; decide)),
    if_neg (fun hh => hnotin (by rw [hh]; decide)),
    if_neg (fun hh => hnotin (by rw [hh]; decide)),
    if_neg (fun hh => hnotin (by rw [hh]; decide)),
    if_neg (fun hh => hnotin (by rw [hh]; decide)),
    if_neg (fun hh => hnotin (by rw [hh]; decide)),
    if_neg (fun hh => hnotin (by rw [hh]; decide)),
    if_neg (fun hh => hnotin (by rw [hh]; decide)),
    if_neg (fun hh => hnotin (by rw [hh]; decide)),
    if_neg (fun hh => hnotin (by rw [hh]; decide)),
    if_neg (fun hh => hnotin (by rw [hh]; decide)),
    if_neg (fun hh => hnotin (by rw [hh]; decide)),
    if_neg (fun hh => hnotin (by rw [hh]; decide)),
    if_neg (by
      intro hh
      rcases hh with hh | hh | hh <;> exact hnotin (by rw [hh]; decide)),
    if_neg (fun hh => hnotin (by rw [hh]; decide)),
    if_neg (fun hh => hnotin (by rw [hh]; decide)),
    if_neg (by rw [hdig]; simp),
    if_neg (by rw [halpha]; simp)]
  exact ⟨rfl, rfl, rfl⟩

theorem unexpected_char_report_witness :
    (⟨['@'], [], 0, 0, 1, []⟩ : ScanState).start = 0 ∧
    (0 : Nat) < (['@'] : List Char).length ∧
    (scanToken ⟨['@'], [], 0, 0, 1, []⟩).tokens = [] ∧
    (scanToken ⟨['@'], [], 0, 0, 1, []⟩).errors =
      [] ++ [⟨1, "Unexpected character."⟩] ∧
    (scanToken ⟨['@'], [], 0, 0, 1, []⟩).current = 0 + 1 := by
  have hh := unexpected_char_report.1 ⟨['@'], [], 0, 0, 1, []⟩ rfl
    (by decide) (by decide) (by decide) (by decide)
  exact ⟨rfl, by decide, hh.1, hh.2.1, hh.2.2⟩

/-- C10 (amended): every lookahead at or past the end of the input is total
and returns the NUL sentinel: `peek` and `peekNext` yield NUL there, and
`match` at end of input returns false for every expected character other
than the NUL sentinel itself (the scanner only ever calls it with `=` and
`/`); hence an input ending in `!` emits BANG and an input that is just a
`//` comment emits only EOF, without any out-of-bounds access. -/
theorem lookahead_nul_sentinel :
    (∀ st : ScanState, isAtEnd st = true → peek st = '\x00') ∧
    (∀ st : ScanState, st.source.length ≤ st.current + 1 →
      peekNext st = '\x00') ∧
    (∀ st : ScanState, ∀ c : Char, isAtEnd st = true → c ≠ '\x00' →
      matchChar st c = (false, st)) ∧
    (scanTokens ['!']).tokens =
      [⟨TokenType.BANG, ['!'], Literal.none, 1⟩,
       ⟨TokenType.EOF, [], Literal.none, 1⟩] ∧
    (scanTokens ['/', '/']).tokens =
      [⟨TokenType.EOF, [], Literal.none, 1⟩] := by
  refine ⟨?_, ?_, ?_, by decide, by decide⟩
  · intro st hend
    exact peek_of_atEnd st ((isAtEnd_iff st).mp hend)
  · intro st hle
    unfold peekNext
    rw [if_pos hle]
  · intro st c hend hne
    unfold matchChar
    rw [peek_of_atEnd st ((isAtEnd_iff st).mp hend)]
    rw [if_pos (bne_iff_ne.mpr (Ne.symm hne))]

theorem lookahead_nul_sentinel_witness :
    isAtEnd ⟨['a'], [], 0, 1, 1, []⟩ = true ∧ ('=' : Char) ≠ '\x00' ∧
    matchChar ⟨['a'], [], 0, 1, 1, []⟩ '=' =
      (false, ⟨['a'], [], 0, 1, 1, []⟩) := by
  refine ⟨by decide, by decide, ?_⟩
  exact lookahead_nul_sentinel.2.2.1 ⟨['a'], [], 0, 1, 1, []⟩ '='
    (by decide) (by decide)

/-- C10 (counterexample): the claim that `match` returns false at end of
input fails for the NUL sentinel itself: at end of input `peek` returns
NUL, so `match` called with expected character NUL compares equal and
returns true (the code checks `peek() != expected` rather than testing
`isAtEnd` first). -/
theorem match_nul_at_end_cex :
    isAtEnd ⟨['a'], [], 0, 1, 1, []⟩ = true ∧
    (matchChar ⟨['a'], [], 0, 1, 1, []⟩ '\x00').1 = true := by
  exact ⟨by decide, by decide⟩

end Scanner
